import Mathlib

/-!
# Verification of the compareDocx comparison core (src/compare.py)

Shallow embedding of the `Compare` class from `src/compare.py` together with
the parts of `difflib.SequenceMatcher` (CPython standard library) that it
calls.  Python strings are Lean `String`s, Python `float` similarity scores
are modelled as exact rationals `ℚ` (all scores in the source are of the form
`2*M/T` for naturals, and all threshold comparisons in the source involve such
values), Python lists are Lean `List`s, and Python `dict`/`set` bookkeeping is
modelled by association lists / duplicate-free lists inserted in the same
order as the source inserts them.
-/

namespace CompareDocx

/-- The set of characters matched by Python's `\s` regex class (and stripped
by `str.strip()`) for `str` patterns: ASCII whitespace, the C1 separators,
and the Unicode whitespace characters.  `src/compare.py` relies on this in
`re.sub(r'\s+', ' ', text)` and `text.strip()`. -/
def isPySpace (c : Char) : Bool :=
  c.toNat == 0x20 || c.toNat == 0x09 || c.toNat == 0x0a || c.toNat == 0x0b ||
  c.toNat == 0x0c || c.toNat == 0x0d || c.toNat == 0x1c || c.toNat == 0x1d ||
  c.toNat == 0x1e || c.toNat == 0x1f || c.toNat == 0x85 || c.toNat == 0xa0 ||
  c.toNat == 0x1680 || (0x2000 ≤ c.toNat && c.toNat ≤ 0x200a) ||
  c.toNat == 0x2028 || c.toNat == 0x2029 || c.toNat == 0x202f ||
  c.toNat == 0x205f || c.toNat == 0x3000

/-- `re.sub(r'\s+', ' ', text)` on a character list: every maximal run of
whitespace characters (anywhere in the string) is replaced by one ASCII
space.  The boolean argument records whether the previous character belonged
to a whitespace run. -/
def collapseWsAux : Bool → List Char → List Char
  | _, [] => []
  | inRun, c :: rest =>
    if isPySpace c then
      if inRun then collapseWsAux true rest
      else ' ' :: collapseWsAux true rest
    else c :: collapseWsAux false rest

/-- `re.sub(r'\s+', ' ', text)`. -/
def collapseWs (s : String) : String :=
  ⟨collapseWsAux false s.data⟩

/-- `re.sub(r'[\n\r]+', ' ', text)`: every maximal run of `\n`/`\r`
characters is replaced by one space. -/
def isNlCr (c : Char) : Bool := c.toNat == 0x0a || c.toNat == 0x0d

def collapseNlAux : Bool → List Char → List Char
  | _, [] => []
  | inRun, c :: rest =>
    if isNlCr c then
      if inRun then collapseNlAux true rest
      else ' ' :: collapseNlAux true rest
    else c :: collapseNlAux false rest

def collapseNl (s : String) : String :=
  ⟨collapseNlAux false s.data⟩

/-- Python `str.strip()`: drop leading and trailing whitespace. -/
def pyStrip (s : String) : String :=
  ⟨((s.data.dropWhile isPySpace).reverse.dropWhile isPySpace).reverse⟩

/-- `str.replace(old, new)` for single-character `old`/`new`, the only form
`_normalize_text` uses (`'\xa0' -> ' '` and friends). -/
def replaceChar (oldC newC : Char) (s : String) : String :=
  ⟨s.data.map (fun c => if c = oldC then newC else c)⟩

/-- Configuration defaults from `src/config.py` (`ComparisonConfig`).
`normalize_case` defaults to `False`, so the lowercasing step of
`_normalize_text` is skipped; the similarity thresholds are the dataclass
defaults. -/
def fingerprintFirstWords : Nat := 5
def fingerprintLastWords : Nat := 5
def simThresholdIdentical : ℚ := 1
def simThresholdHigh : ℚ := (95 : ℚ) / 100
def simThresholdMedium : ℚ := (8 : ℚ) / 10
def simThresholdLow : ℚ := (6 : ℚ) / 10

/-- `Compare._normalize_text` with the default configuration
(`normalize_case = False`): collapse whitespace runs, strip, collapse
newline runs, replace the three special spaces, collapse again, strip. -/
def normalizeText (text : String) : String :=
  if text = "" then ""
  else
    let t1 := collapseWs text
    let t2 := pyStrip t1
    let t3 := collapseNl t2
    let t4 := replaceChar (Char.ofNat 0xa0) ' ' t3
    let t5 := replaceChar (Char.ofNat 0x2009) ' ' t4
    let t6 := replaceChar (Char.ofNat 0x2008) ' ' t5
    let t7 := collapseWs t6
    pyStrip t7

/-- Python `str.split()` (no separator argument): split on whitespace runs,
discarding empty pieces. -/
def pySplitAux : List Char → List Char → List String
  | cur, [] => if cur = [] then [] else [⟨cur.reverse⟩]
  | cur, c :: rest =>
    if isPySpace c then
      if cur = [] then pySplitAux [] rest
      else ⟨cur.reverse⟩ :: pySplitAux [] rest
    else pySplitAux (c :: cur) rest

def pySplit (s : String) : List String :=
  pySplitAux [] s.data

/-- `' '.join(words)`. -/
def spaceJoin (ws : List String) : String :=
  String.intercalate " " ws

/-- `Compare._get_text_fingerprint`: first/last words of the normalized text
plus its length and word count, `""` for empty normalized text.  The last
words component is `''` unless the word count exceeds
`fingerprint_last_words`. -/
def getTextFingerprint (text : String) : String :=
  let normalized := normalizeText text
  let words := pySplit normalized
  if words.length = 0 then ""
  else
    let firstWords := spaceJoin (words.take fingerprintFirstWords)
    let lastWords :=
      if words.length > fingerprintLastWords then
        spaceJoin (words.drop (words.length - fingerprintLastWords))
      else ""
    firstWords ++ "|" ++ lastWords ++ "|" ++ toString normalized.length ++
      "|" ++ toString words.length

/-- The fingerprint format that §4.2 of the specification describes:
`firstK words ++ "|" ++ lastK words ++ "|" ++ charLength ++ "|" ++ wordCount`
with no condition on the word count.  Modelled from the spec's words, for
comparison against `getTextFingerprint` above. -/
def specFingerprint (text : String) : String :=
  let normalized := normalizeText text
  let words := pySplit normalized
  if words.length = 0 then ""
  else
    spaceJoin (words.take fingerprintFirstWords) ++ "|" ++
      spaceJoin (words.drop (words.length - fingerprintLastWords)) ++ "|" ++
      toString normalized.length ++ "|" ++ toString words.length

/-!
## difflib.SequenceMatcher (CPython standard library)

`src/compare.py` constructs every matcher as `difflib.SequenceMatcher(None, a, b)`,
i.e. with `isjunk = None`, so the explicit junk set `bjunk` is always empty and
the two junk-extension loops of `find_longest_match` never fire; they are
omitted below.  The `autojunk` heuristic (elements occurring in more than
`len(b)//100 + 1` positions of `b` when `len(b) >= 200` are dropped from the
`b2j` index) is kept, since documents can exceed 200 paragraphs.
-/

section SeqMatcher

variable {α : Type} [DecidableEq α]

/-- The `autojunk` "popular element" test from `SequenceMatcher.__chain_b`. -/
def isPopular (b : List α) (v : α) : Bool :=
  decide (200 ≤ b.length) && decide (b.length / 100 + 1 < b.count v)

/-- The `b2j` index of `SequenceMatcher.__chain_b`: the ascending list of
positions of `v` in `b`, with popular elements purged (and `bjunk` empty
because `isjunk` is `None` at every call site). -/
def b2j (b : List α) (v : α) : List Nat :=
  if isPopular b v then []
  else (List.range b.length).filter (fun j => b.get? j = some v)

/-- `j2len.get(j-1, 0)`: look up an association-list row with default `0`.
Note that Python evaluates `j2len.get(j-1, 0)` at `j = 0` as a lookup of key
`-1`, which is always absent, hence the explicit `j = 0` case. -/
def rowGet (row : List (Nat × Nat)) (j : Nat) : Nat :=
  match row.find? (fun p => p.1 == j) with
  | some p => p.2
  | none => 0

def rowPrev (prev : List (Nat × Nat)) (j : Nat) : Nat :=
  if j = 0 then 0 else rowGet prev (j - 1)

/-- `newj2len[j] = k`: dict assignment (update or append). -/
def rowSet (row : List (Nat × Nat)) (j k : Nat) : List (Nat × Nat) :=
  if row.any (fun p => p.1 == j) then
    row.map (fun p => if p.1 == j then (j, k) else p)
  else row ++ [(j, k)]

/-- The inner `for j in b2j.get(a[i], nothing)` loop of `find_longest_match`,
acting on the state `(best, newj2len)`; `prev` is the previous row `j2len`.
The `if j < blo: continue` / `if j >= bhi: break` guards are applied by the
caller as a filter, which is equivalent because `b2j` buckets are ascending. -/
def flmRow (i : Nat) (prev : List (Nat × Nat)) :
    ((Nat × Nat × Nat) × List (Nat × Nat)) → List Nat →
    ((Nat × Nat × Nat) × List (Nat × Nat))
  | st, [] => st
  | (best, newRow), j :: js =>
    let k := rowPrev prev j + 1
    let newRow' := rowSet newRow j k
    let best' := if best.2.2 < k then (i + 1 - k, j + 1 - k, k) else best
    flmRow i prev (best', newRow') js

/-- The bucket `b2j.get(a[i], nothing)`, restricted to the window `[blo, bhi)`
(the `continue`/`break` guards of the inner loop; buckets are ascending, so
the `break` is equivalent to a filter). -/
def rowBucket (a b : List α) (blo bhi i : Nat) : List Nat :=
  match a.get? i with
  | none => []
  | some v => (b2j b v).filter (fun j => decide (blo ≤ j) && decide (j < bhi))

def flmRows (a b : List α) (blo bhi : Nat) :
    List Nat → ((Nat × Nat × Nat) × List (Nat × Nat)) →
    ((Nat × Nat × Nat) × List (Nat × Nat))
  | [], st => st
  | i :: is, (best, prev) =>
    let st' := flmRow i prev (best, []) (rowBucket a b blo bhi i)
    flmRows a b blo bhi is st'

/-- The dynamic-programming phase of `find_longest_match`. -/
def flmDP (a b : List α) (alo ahi blo bhi : Nat) : Nat × Nat × Nat :=
  (flmRows a b blo bhi (List.range' alo (ahi - alo)) ((alo, blo, 0), [])).1

/-- First extension loop of `find_longest_match` (with `bjunk` empty):
extend the best block leftwards over equal elements.  The loop decrements
`besti` by one per iteration and stops at `besti = alo ≥ 0`, so structural
recursion on `besti` runs it exactly (in the `besti = 0` case the guard
`alo < besti` is false, and the function returns its arguments, as the
loop would). -/
def extendLeft (a b : List α) (alo blo : Nat) :
    Nat → Nat → Nat → Nat × Nat × Nat
  | 0, bestj, bestsize => (0, bestj, bestsize)
  | besti + 1, bestj, bestsize =>
    if alo < besti + 1 ∧ blo < bestj ∧ a.get? besti = b.get? (bestj - 1) then
      extendLeft a b alo blo besti (bestj - 1) (bestsize + 1)
    else (besti + 1, bestj, bestsize)

/-- Second extension loop: extend the best block rightwards over equal
elements.  The loop increments `bestsize` while `besti + bestsize < ahi`,
so the gap `ahi - (besti + bestsize)` decreases by one per iteration; it is
passed as a structural recursion argument (when it is `0` the guard is
false and the loop exits, matching the base case). -/
def extendRightAux (a b : List α) (ahi bhi besti bestj : Nat) :
    Nat → Nat → Nat
  | 0, bestsize => bestsize
  | gap + 1, bestsize =>
    if besti + bestsize < ahi ∧ bestj + bestsize < bhi ∧
        a.get? (besti + bestsize) = b.get? (bestj + bestsize) then
      extendRightAux a b ahi bhi besti bestj gap (bestsize + 1)
    else bestsize

def extendRight (a b : List α) (ahi bhi besti bestj bestsize : Nat) : Nat :=
  extendRightAux a b ahi bhi besti bestj (ahi - (besti + bestsize)) bestsize

/-- `SequenceMatcher.find_longest_match` (with `isjunk = None`). -/
def findLongestMatch (a b : List α) (alo ahi blo bhi : Nat) : Nat × Nat × Nat :=
  let d := flmDP a b alo ahi blo bhi
  let e := extendLeft a b alo blo d.1 d.2.1 d.2.2
  (e.1, e.2.1, extendRight a b ahi bhi e.1 e.2.1 e.2.2)

/-- In-window property of the result of `findLongestMatch` when a nonempty
block was found. -/
def InWindow (alo ahi blo bhi : Nat) (x : Nat × Nat × Nat) : Prop :=
  1 ≤ x.2.2 ∧ alo ≤ x.1 ∧ x.1 + x.2.2 ≤ ahi ∧ blo ≤ x.2.1 ∧ x.2.1 + x.2.2 ≤ bhi

/-- The DP/extension state invariant: the best block is still the initial
`(alo, blo, 0)` or lies properly inside the window. -/
def BestInv (alo ahi blo bhi : Nat) (x : Nat × Nat × Nat) : Prop :=
  x = (alo, blo, 0) ∨ InWindow alo ahi blo bhi x

theorem rowGet_cases (row : List (Nat × Nat)) (j : Nat) :
    rowGet row j = 0 ∨ (j, rowGet row j) ∈ row := by
  unfold rowGet
  cases hf : row.find? (fun p => p.1 == j) with
  | none => exact Or.inl rfl
  | some p =>
    right
    have hp := List.find?_some hf
    have hmem := List.mem_of_find?_eq_some hf
    simp only [beq_iff_eq] at hp
    simpa [← hp] using hmem

theorem rowSet_mem (row : List (Nat × Nat)) (j k : Nat) :
    ∀ p ∈ rowSet row j k, p ∈ row ∨ p = (j, k) := by
  intro p hp
  unfold rowSet at hp
  split at hp
  · rcases List.mem_map.mp hp with ⟨q, hq, hqe⟩
    by_cases h : q.1 = j
    · right
      rw [← hqe]
      simp [h]
    · left
      have : (if (q.1 == j) = true then (j, k) else q) = q := by simp [h]
      rw [← hqe, this]
      exact hq
  · rcases List.mem_append.mp hp with h | h
    · exact Or.inl h
    · right; simpa using h

theorem flmRow_inv (a b : List α) (alo ahi blo bhi : Nat) (i : Nat)
    (hi : alo ≤ i ∧ i < ahi)
    (prev : List (Nat × Nat))
    (hprev : ∀ p ∈ prev, p.2 + blo ≤ p.1 + 1 ∧ p.2 + alo ≤ i) :
    ∀ js best newRow,
      (∀ j ∈ js, blo ≤ j ∧ j < bhi) →
      BestInv alo ahi blo bhi best →
      (∀ p ∈ newRow, p.2 + blo ≤ p.1 + 1 ∧ p.2 + alo ≤ i + 1) →
      BestInv alo ahi blo bhi (flmRow i prev (best, newRow) js).1 ∧
      (∀ p ∈ (flmRow i prev (best, newRow) js).2,
        p.2 + blo ≤ p.1 + 1 ∧ p.2 + alo ≤ i + 1) := by
  intro js
  induction js with
  | nil => intro best newRow _ hb hr; exact ⟨hb, hr⟩
  | cons j js ih =>
    intro best newRow hjs hb hr
    have hj := hjs j (by simp)
    have hk1 : rowPrev prev j + 1 + blo ≤ j + 1 := by
      unfold rowPrev
      split
      · omega
      · rcases rowGet_cases prev (j - 1) with h0 | hmem
        · omega
        · have := hprev _ hmem
          simp only at this
          omega
    have hk2 : rowPrev prev j + 1 + alo ≤ i + 1 := by
      unfold rowPrev
      split
      · omega
      · rcases rowGet_cases prev (j - 1) with h0 | hmem
        · omega
        · have := hprev _ hmem
          omega
    rw [flmRow]
    apply ih
    · intro j' hj'; exact hjs j' (by simp [hj'])
    · -- best invariant is preserved by a possible record
      by_cases hrec : best.2.2 < rowPrev prev j + 1
      · rw [if_pos hrec]
        right
        show 1 ≤ rowPrev prev j + 1 ∧
          alo ≤ i + 1 - (rowPrev prev j + 1) ∧
          i + 1 - (rowPrev prev j + 1) + (rowPrev prev j + 1) ≤ ahi ∧
          blo ≤ j + 1 - (rowPrev prev j + 1) ∧
          j + 1 - (rowPrev prev j + 1) + (rowPrev prev j + 1) ≤ bhi
        omega
      · rw [if_neg hrec]
        exact hb
    · intro p hp
      rcases rowSet_mem _ _ _ p hp with h | h
      · exact hr p h
      · subst h; exact ⟨hk1, hk2⟩

theorem flmRows_inv (a b : List α) (blo bhi : Nat) (alo ahi : Nat) :
    ∀ (n i0 : Nat) best prev,
      alo ≤ i0 → i0 + n ≤ ahi →
      BestInv alo ahi blo bhi best →
      (∀ p ∈ prev, p.2 + blo ≤ p.1 + 1 ∧ p.2 + alo ≤ i0) →
      BestInv alo ahi blo bhi
        (flmRows a b blo bhi (List.range' i0 n) (best, prev)).1 := by
  intro n
  induction n with
  | zero => intro i0 best prev _ _ hb _; simpa [flmRows] using hb
  | succ n ih =>
    intro i0 best prev h0 h1 hb hprev
    rw [List.range'_succ, flmRows]
    have hbucket : ∀ j ∈ rowBucket a b blo bhi i0, blo ≤ j ∧ j < bhi := by
      intro j hj
      unfold rowBucket at hj
      cases hv : a.get? i0 with
      | none => rw [hv] at hj; simp at hj
      | some v =>
        rw [hv] at hj
        simp only [List.mem_filter, Bool.and_eq_true, decide_eq_true_eq] at hj
        exact hj.2
    have hrow := flmRow_inv a b alo ahi blo bhi i0 ⟨h0, by omega⟩ prev hprev
      (rowBucket a b blo bhi i0) best [] hbucket hb (by simp)
    rcases hrow with ⟨hb', hr'⟩
    exact ih (i0 + 1) _ _ (by omega) (by omega) hb'
      (fun p hp => by have := hr' p hp; omega)

theorem flmDP_inv (a b : List α) (alo ahi blo bhi : Nat) :
    BestInv alo ahi blo bhi (flmDP a b alo ahi blo bhi) := by
  unfold flmDP
  by_cases h : alo ≤ ahi
  · exact flmRows_inv a b blo bhi alo ahi (ahi - alo) alo _ [] le_rfl (by omega)
      (Or.inl rfl) (by simp)
  · have h0 : ahi - alo = 0 := by omega
    rw [h0]
    exact Or.inl rfl

theorem extendLeft_inv (a b : List α) (alo blo ahi bhi : Nat) :
    ∀ besti bestj bestsize,
      BestInv alo ahi blo bhi (besti, bestj, bestsize) →
      BestInv alo ahi blo bhi (extendLeft a b alo blo besti bestj bestsize) := by
  intro besti
  induction besti with
  | zero =>
    intro bestj bestsize hb
    exact hb
  | succ n ih =>
    intro bestj bestsize hb
    rw [extendLeft]
    split
    · rename_i h
      apply ih
      rcases hb with h0 | hw
      · exfalso
        have h1 : n + 1 = alo := congrArg Prod.fst h0
        omega
      · right
        unfold InWindow at hw ⊢
        simp only at hw ⊢
        omega
    · exact hb

theorem extendRightAux_spec (a b : List α) (ahi bhi besti bestj : Nat) :
    ∀ gap bestsize,
      extendRightAux a b ahi bhi besti bestj gap bestsize = bestsize ∨
      (bestsize < extendRightAux a b ahi bhi besti bestj gap bestsize ∧
        besti + extendRightAux a b ahi bhi besti bestj gap bestsize ≤ ahi ∧
        bestj + extendRightAux a b ahi bhi besti bestj gap bestsize ≤ bhi) := by
  intro gap
  induction gap with
  | zero =>
    intro bestsize
    exact Or.inl rfl
  | succ gap ih =>
    intro bestsize
    rw [extendRightAux]
    split
    · rename_i h
      rcases ih (bestsize + 1) with h1 | h1
      · right
        rw [h1]
        omega
      · right
        omega
    · exact Or.inl rfl

/-- `extendRight` either leaves the size unchanged or strictly grows it
while staying inside the window. -/
theorem extendRight_spec (a b : List α) (ahi bhi besti bestj bestsize : Nat) :
    extendRight a b ahi bhi besti bestj bestsize = bestsize ∨
    (bestsize < extendRight a b ahi bhi besti bestj bestsize ∧
      besti + extendRight a b ahi bhi besti bestj bestsize ≤ ahi ∧
      bestj + extendRight a b ahi bhi besti bestj bestsize ≤ bhi) := by
  unfold extendRight
  exact extendRightAux_spec a b ahi bhi besti bestj (ahi - (besti + bestsize))
    bestsize

/-- Whenever `find_longest_match` reports a nonempty block, that block lies
inside the requested window. -/
theorem findLongestMatch_window (a b : List α) (alo ahi blo bhi : Nat) :
    (findLongestMatch a b alo ahi blo bhi).2.2 ≠ 0 →
    InWindow alo ahi blo bhi (findLongestMatch a b alo ahi blo bhi) := by
  intro hk
  unfold findLongestMatch at hk ⊢
  simp only at hk ⊢
  unfold InWindow
  simp only
  have hd := flmDP_inv a b alo ahi blo bhi
  have he := extendLeft_inv a b alo blo ahi bhi
    (flmDP a b alo ahi blo bhi).1 (flmDP a b alo ahi blo bhi).2.1
    (flmDP a b alo ahi blo bhi).2.2 (by simpa using hd)
  set e := extendLeft a b alo blo (flmDP a b alo ahi blo bhi).1
    (flmDP a b alo ahi blo bhi).2.1 (flmDP a b alo ahi blo bhi).2.2 with hedef
  have hr := extendRight_spec a b ahi bhi e.1 e.2.1 e.2.2
  rcases he with h0 | hw
  · have h1 : e.1 = alo := by rw [h0]
    have h2 : e.2.1 = blo := by rw [h0]
    have h3 : e.2.2 = 0 := by rw [h0]
    rw [h1, h2, h3] at hr hk ⊢
    rcases hr with hsame | hgrow
    · exact absurd hsame hk
    · omega
  · unfold InWindow at hw
    rcases hr with hsame | hgrow
    · rw [hsame] at hk ⊢
      omega
    · omega

/-- The worklist recursion of `get_matching_blocks`.  CPython keeps a queue
of windows, collects blocks in arbitrary order and sorts them afterwards;
since every block found in the left gap window precedes the current block on
both sides, and every block of the right gap window follows it, emitting the
blocks in recursion order produces exactly the sorted list, so no sort step
is needed here.  The recursion is driven by a fuel argument that starts at
`ahi - alo` and decreases by one per level; by `findLongestMatch_window`
both gap windows have `a`-size at most one less than the current window's,
so `fuel ≥ ahi - alo` holds at every call, and when the fuel is `0` the
window is empty, `find_longest_match` reports size `0`, and `[]` is what the
recursion would return anyway. -/
def matchingBlocksAux (a b : List α) :
    Nat → Nat → Nat → Nat → Nat → List (Nat × Nat × Nat)
  | 0, _, _, _, _ => []
  | fuel + 1, alo, ahi, blo, bhi =>
    let x := findLongestMatch a b alo ahi blo bhi
    if x.2.2 = 0 then []
    else
      (if alo < x.1 ∧ blo < x.2.1 then
        matchingBlocksAux a b fuel alo x.1 blo x.2.1 else []) ++
      x :: (if x.1 + x.2.2 < ahi ∧ x.2.1 + x.2.2 < bhi then
        matchingBlocksAux a b fuel (x.1 + x.2.2) ahi (x.2.1 + x.2.2) bhi
      else [])

def matchingBlocksRec (a b : List α) (alo ahi blo bhi : Nat) :
    List (Nat × Nat × Nat) :=
  matchingBlocksAux a b (ahi - alo) alo ahi blo bhi

/-- The adjacent-block collapsing loop at the end of `get_matching_blocks`.
The accumulator `cur` plays the role of `(i1, j1, k1)`, initially
`(0, 0, 0)`. -/
def collapseBlocks : (Nat × Nat × Nat) → List (Nat × Nat × Nat) →
    List (Nat × Nat × Nat)
  | cur, [] => if cur.2.2 ≠ 0 then [cur] else []
  | cur, blk :: rest =>
    if cur.1 + cur.2.2 = blk.1 ∧ cur.2.1 + cur.2.2 = blk.2.1 then
      collapseBlocks (cur.1, cur.2.1, cur.2.2 + blk.2.2) rest
    else
      (if cur.2.2 ≠ 0 then [cur] else []) ++ collapseBlocks blk rest

/-- `SequenceMatcher.get_matching_blocks`: recursion, collapse of adjacent
blocks, and the terminal dummy block `(len(a), len(b), 0)`. -/
def getMatchingBlocks (a b : List α) : List (Nat × Nat × Nat) :=
  collapseBlocks (0, 0, 0) (matchingBlocksRec a b 0 a.length 0 b.length) ++
    [(a.length, b.length, 0)]

/-- `SequenceMatcher.get_opcodes`, built from the matching blocks. -/
def opcodesAux : Nat → Nat → List (Nat × Nat × Nat) →
    List (String × Nat × Nat × Nat × Nat)
  | _, _, [] => []
  | i, j, blk :: rest =>
    let tag :=
      if i < blk.1 ∧ j < blk.2.1 then "replace"
      else if i < blk.1 then "delete"
      else if j < blk.2.1 then "insert"
      else ""
    (if tag ≠ "" then [(tag, i, blk.1, j, blk.2.1)] else []) ++
    (if blk.2.2 ≠ 0 then
      [("equal", blk.1, blk.1 + blk.2.2, blk.2.1, blk.2.1 + blk.2.2)] else []) ++
    opcodesAux (blk.1 + blk.2.2) (blk.2.1 + blk.2.2) rest

def getOpcodes (a b : List α) : List (String × Nat × Nat × Nat × Nat) :=
  opcodesAux 0 0 (getMatchingBlocks a b)

/-- `SequenceMatcher.ratio`: `2 * M / T` where `M` is the total size of the
matching blocks and `T` the combined length, with `T = 0` giving `1.0`
(`difflib._calculate_ratio`). -/
def sumMatchSizes (l : List (Nat × Nat × Nat)) : Nat :=
  (l.map (fun blk => blk.2.2)).sum

theorem sumMatchSizes_nil : sumMatchSizes [] = 0 := rfl

theorem sumMatchSizes_cons (x : Nat × Nat × Nat) (l : List (Nat × Nat × Nat)) :
    sumMatchSizes (x :: l) = x.2.2 + sumMatchSizes l := by
  simp [sumMatchSizes]

theorem sumMatchSizes_append (l1 l2 : List (Nat × Nat × Nat)) :
    sumMatchSizes (l1 ++ l2) = sumMatchSizes l1 + sumMatchSizes l2 := by
  simp [sumMatchSizes]

def ratioQ (a b : List α) : ℚ :=
  if a.length + b.length = 0 then 1
  else (2 * (sumMatchSizes (getMatchingBlocks a b) : ℚ)) /
    ((a.length : ℚ) + (b.length : ℚ))

/-- Separation order on blocks: the first ends before the second starts, on
both sides. -/
def BlockSep (x y : Nat × Nat × Nat) : Prop :=
  x.1 + x.2.2 ≤ y.1 ∧ x.2.1 + x.2.2 ≤ y.2.1

/-- Every block emitted by the recursion is a nonempty block inside the
requested window, and the emitted list is pairwise separated (for any
fuel). -/
theorem matchingBlocksAux_spec (a b : List α) :
    ∀ N alo ahi blo bhi,
      (∀ blk ∈ matchingBlocksAux a b N alo ahi blo bhi,
        1 ≤ blk.2.2 ∧ alo ≤ blk.1 ∧ blk.1 + blk.2.2 ≤ ahi ∧
        blo ≤ blk.2.1 ∧ blk.2.1 + blk.2.2 ≤ bhi) ∧
      (matchingBlocksAux a b N alo ahi blo bhi).Pairwise BlockSep := by
  intro N
  induction N with
  | zero =>
    intro alo ahi blo bhi
    exact ⟨fun blk hblk => by simp [matchingBlocksAux] at hblk,
      by rw [matchingBlocksAux]; exact List.Pairwise.nil⟩
  | succ N ih =>
    intro alo ahi blo bhi
    rw [matchingBlocksAux]
    by_cases hx : (findLongestMatch a b alo ahi blo bhi).2.2 = 0
    · simp [hx]
    · simp only [if_neg hx]
      set x := findLongestMatch a b alo ahi blo bhi with hxdef
      have hw := findLongestMatch_window a b alo ahi blo bhi hx
      rw [← hxdef] at hw
      rcases hw with ⟨h1, h2, h3, h4, h5⟩
      have hleft := ih alo x.1 blo x.2.1
      have hright := ih (x.1 + x.2.2) ahi (x.2.1 + x.2.2) bhi
      set L := (if alo < x.1 ∧ blo < x.2.1 then
        matchingBlocksAux a b N alo x.1 blo x.2.1 else []) with hLdef
      set R := (if x.1 + x.2.2 < ahi ∧ x.2.1 + x.2.2 < bhi then
        matchingBlocksAux a b N (x.1 + x.2.2) ahi (x.2.1 + x.2.2) bhi else [])
        with hRdef
      have hLmem : ∀ blk ∈ L, 1 ≤ blk.2.2 ∧ alo ≤ blk.1 ∧
          blk.1 + blk.2.2 ≤ x.1 ∧ blo ≤ blk.2.1 ∧ blk.2.1 + blk.2.2 ≤ x.2.1 := by
        rw [hLdef]
        split
        · exact hleft.1
        · intro blk hblk; simp at hblk
      have hRmem : ∀ blk ∈ R, 1 ≤ blk.2.2 ∧ x.1 + x.2.2 ≤ blk.1 ∧
          blk.1 + blk.2.2 ≤ ahi ∧ x.2.1 + x.2.2 ≤ blk.2.1 ∧
          blk.2.1 + blk.2.2 ≤ bhi := by
        rw [hRdef]
        split
        · exact hright.1
        · intro blk hblk; simp at hblk
      have hLpw : L.Pairwise BlockSep := by
        rw [hLdef]; split
        · exact hleft.2
        · exact List.Pairwise.nil
      have hRpw : R.Pairwise BlockSep := by
        rw [hRdef]; split
        · exact hright.2
        · exact List.Pairwise.nil
      constructor
      · intro blk hblk
        rcases List.mem_append.mp hblk with hL | hmid
        · have := hLmem blk hL
          omega
        · rcases List.mem_cons.mp hmid with hEq | hR
          · subst hEq
            exact ⟨by omega, h2, h3, h4, h5⟩
          · have := hRmem blk hR
            omega
      · rw [List.pairwise_append]
        refine ⟨hLpw, ?_, ?_⟩
        · rw [List.pairwise_cons]
          refine ⟨fun blk hblk => ?_, hRpw⟩
          have := hRmem blk hblk
          exact ⟨by omega, by omega⟩
        · intro y hy z hz
          have hyb := hLmem y hy
          rcases List.mem_cons.mp hz with hEq | hR
          · subst hEq
            exact ⟨by omega, by omega⟩
          · have hzb := hRmem z hR
            exact ⟨by omega, by omega⟩

/-- Collapsing preserves: blocks within bounds, pairwise separation, and the
total size.  `cur` is the running accumulator. -/
theorem collapseBlocks_spec (n m : Nat) :
    ∀ (l : List (Nat × Nat × Nat)) (cur : Nat × Nat × Nat),
      (∀ blk ∈ l, 1 ≤ blk.2.2 ∧ blk.1 + blk.2.2 ≤ n ∧ blk.2.1 + blk.2.2 ≤ m) →
      l.Pairwise BlockSep →
      (cur.1 + cur.2.2 ≤ n ∧ cur.2.1 + cur.2.2 ≤ m) →
      (∀ blk ∈ l, BlockSep cur blk) →
      (∀ blk ∈ collapseBlocks cur l,
        1 ≤ blk.2.2 ∧ blk.1 + blk.2.2 ≤ n ∧ blk.2.1 + blk.2.2 ≤ m ∧
        cur.1 ≤ blk.1 ∧ cur.2.1 ≤ blk.2.1) ∧
      (collapseBlocks cur l).Pairwise BlockSep ∧
      sumMatchSizes (collapseBlocks cur l) = cur.2.2 + sumMatchSizes l := by
  intro l
  induction l with
  | nil =>
    intro cur _ _ hcur _
    constructor
    · intro blk hblk
      unfold collapseBlocks at hblk
      split at hblk
      · rename_i h0
        rcases List.mem_singleton.mp hblk with rfl
        refine ⟨by omega, hcur.1, hcur.2, le_rfl, le_rfl⟩
      · simp at hblk
    · constructor
      · unfold collapseBlocks
        split
        · exact List.pairwise_singleton _ _
        · exact List.Pairwise.nil
      · unfold collapseBlocks
        split
        · rename_i h0
          simp [sumMatchSizes]
        · rename_i h0
          simp only [ne_eq, not_not] at h0
          simp [sumMatchSizes, h0]
  | cons blk rest ih =>
    intro cur hmem hpw hcur hsep
    have hblk := hmem blk (by simp)
    have hrest : ∀ y ∈ rest, 1 ≤ y.2.2 ∧ y.1 + y.2.2 ≤ n ∧ y.2.1 + y.2.2 ≤ m :=
      fun y hy => hmem y (by simp [hy])
    have hpw' := List.pairwise_cons.mp hpw
    unfold collapseBlocks
    split
    · rename_i hadj
      -- merge cur and blk
      have hih := ih (cur.1, cur.2.1, cur.2.2 + blk.2.2) hrest hpw'.2
        (by simp only; omega)
        (by
          intro y hy
          have := hpw'.1 y hy
          unfold BlockSep at this ⊢
          simp only
          omega)
      refine ⟨?_, hih.2.1, ?_⟩
      · intro z hz
        have := hih.1 z hz
        simp only at this
        exact ⟨this.1, this.2.1, this.2.2.1, this.2.2.2.1, this.2.2.2.2⟩
      · rw [hih.2.2, sumMatchSizes_cons]
        show cur.2.2 + blk.2.2 + sumMatchSizes rest =
          cur.2.2 + (blk.2.2 + sumMatchSizes rest)
        omega
    · rename_i hadj
      have hih := ih blk hrest hpw'.2 ⟨hblk.2.1, hblk.2.2⟩ hpw'.1
      constructor
      · intro z hz
        rcases List.mem_append.mp hz with h | h
        · split at h
          · rcases List.mem_singleton.mp h with rfl
            have hs0 := hsep blk (by simp)
            unfold BlockSep at hs0
            refine ⟨by omega, hcur.1, hcur.2, le_rfl, le_rfl⟩
          · simp at h
        · have := hih.1 z h
          have hs0 := hsep blk (by simp)
          unfold BlockSep at hs0
          refine ⟨this.1, this.2.1, this.2.2.1, by omega, by omega⟩
      constructor
      · rw [List.pairwise_append]
        refine ⟨?_, hih.2.1, ?_⟩
        · split
          · exact List.pairwise_singleton _ _
          · exact List.Pairwise.nil
        · intro y hy z hz
          split at hy
          · rcases List.mem_singleton.mp hy with rfl
            have := hih.1 z hz
            have hs0 := hsep blk (by simp)
            unfold BlockSep at hs0 ⊢
            exact ⟨by omega, by omega⟩
          · simp at hy
      · rw [sumMatchSizes_append, hih.2.2, sumMatchSizes_cons]
        split
        · rw [sumMatchSizes_cons, sumMatchSizes_nil]
          omega
        · rename_i h0
          simp only [ne_eq, not_not] at h0
          rw [sumMatchSizes_nil, h0]

/-- The matching blocks of `get_matching_blocks`: every block lies within the
two sequences, the list is pairwise separated, and the total matched size
equals that of the raw recursion. -/
theorem getMatchingBlocks_spec (a b : List α) :
    (∀ blk ∈ getMatchingBlocks a b,
      blk.1 + blk.2.2 ≤ a.length ∧ blk.2.1 + blk.2.2 ≤ b.length) ∧
    (getMatchingBlocks a b).Pairwise BlockSep ∧
    sumMatchSizes (getMatchingBlocks a b) =
      sumMatchSizes (matchingBlocksRec a b 0 a.length 0 b.length) := by
  have hrec := matchingBlocksAux_spec a b (a.length - 0) 0 a.length 0 b.length
  have hcol := collapseBlocks_spec a.length b.length
    (matchingBlocksRec a b 0 a.length 0 b.length) (0, 0, 0)
    (fun blk hblk => by
      have := hrec.1 blk hblk
      exact ⟨this.1, this.2.2.1, this.2.2.2.2⟩)
    hrec.2
    ⟨Nat.zero_le _, Nat.zero_le _⟩
    (fun blk _ => ⟨Nat.zero_le _, Nat.zero_le _⟩)
  unfold getMatchingBlocks
  refine ⟨?_, ?_, ?_⟩
  · intro blk hblk
    rcases List.mem_append.mp hblk with h | h
    · have := hcol.1 blk h
      exact ⟨this.2.1, this.2.2.1⟩
    · rcases List.mem_singleton.mp h with rfl
      simp
  · rw [List.pairwise_append]
    refine ⟨hcol.2.1, List.pairwise_singleton _ _, ?_⟩
    intro y hy z hz
    rcases List.mem_singleton.mp hz with rfl
    have h1 := hcol.1 y hy
    have h2 := h1.2.1
    have h3 := h1.2.2.1
    exact ⟨by simp only; omega, by simp only; omega⟩
  · have hsum := hcol.2.2
    have h00 : ((0, 0, 0) : Nat × Nat × Nat).2.2 = 0 := rfl
    rw [h00] at hsum
    rw [sumMatchSizes_append, hsum]
    have h01 : sumMatchSizes [((a.length, b.length, 0) : Nat × Nat × Nat)] = 0 :=
      rfl
    rw [h01]
    omega

/-- Sum of sizes of a separated in-bounds block list is at most the length of
either side. -/
theorem sumSizes_le (n m : Nat) :
    ∀ (l : List (Nat × Nat × Nat)) (lo lo' : Nat),
      (∀ blk ∈ l, blk.1 + blk.2.2 ≤ n ∧ blk.2.1 + blk.2.2 ≤ m ∧
        lo ≤ blk.1 ∧ lo' ≤ blk.2.1) →
      l.Pairwise BlockSep →
      lo + sumMatchSizes l ≤ max n lo ∧ lo' + sumMatchSizes l ≤ max m lo' := by
  intro l
  induction l with
  | nil =>
    intro lo lo' _ _
    rw [sumMatchSizes_nil]
    omega
  | cons blk rest ih =>
    intro lo lo' hmem hpw
    have hblk := hmem blk (by simp)
    have hpw' := List.pairwise_cons.mp hpw
    have hih := ih (blk.1 + blk.2.2) (blk.2.1 + blk.2.2)
      (fun y hy => by
        have h1 := hmem y (by simp [hy])
        have h2 := hpw'.1 y hy
        unfold BlockSep at h2
        exact ⟨h1.1, h1.2.1, h2.1, h2.2⟩)
      hpw'.2
    rw [sumMatchSizes] at hih ⊢
    simp only [List.map_cons, List.sum_cons]
    omega

/-!
### Self-comparison: the DP best block lies on the diagonal

In `find_longest_match(x, x, 0, n, 0, n)` the dynamic-programming phase can
only record blocks on the main diagonal: the run value stored at `(i, j)` is
bounded by the length of the run of non-popular positions ending at `i` and
at `j`, the diagonal entry attains that bound exactly, and the ascending
inner loop visits the diagonal position of each row before any position to
its right.  `njF` tracks those run lengths.
-/

/-- `true` when position `i` of `x` is absent or autojunk-popular, i.e. when
the `b2j` bucket of `x[i]` is empty in the self-comparison. -/
def popAt (x : List α) (i : Nat) : Bool :=
  match x.get? i with
  | none => true
  | some v => isPopular x v

/-- Length of the run of non-popular positions of `x` ending at `i`. -/
def njF (x : List α) : Nat → Nat
  | 0 => if popAt x 0 then 0 else 1
  | i + 1 => if popAt x (i + 1) then 0 else njF x i + 1

/-- `njF` at `i - 1`, with value `0` at `i = 0`. -/
def njPred (x : List α) : Nat → Nat
  | 0 => 0
  | i + 1 => njF x i

theorem njF_le (x : List α) : ∀ i, njF x i ≤ i + 1
  | 0 => by unfold njF; split <;> omega
  | i + 1 => by
    have := njF_le x i
    unfold njF; split <;> omega

theorem njF_of_not_pop (x : List α) (i : Nat) (h : popAt x i = false) :
    njF x i = njPred x i + 1 := by
  cases i with
  | zero => simp [njF, njPred, h]
  | succ t => simp [njF, njPred, h]

theorem njF_of_pop (x : List α) (i : Nat) (h : popAt x i = true) :
    njF x i = 0 := by
  cases i with
  | zero => simp [njF, h]
  | succ t => simp [njF, h]

theorem rowGet_nil (j : Nat) : rowGet ([] : List (Nat × Nat)) j = 0 := rfl

theorem rowGet_rowSet_self (row : List (Nat × Nat)) (j k : Nat) :
    rowGet (rowSet row j k) j = k := by
  unfold rowSet
  split
  · rename_i hany
    rcases List.any_eq_true.mp hany with ⟨p, hp, hpj⟩
    unfold rowGet
    rw [List.find?_map]
    have hpred : ((fun q : Nat × Nat => q.1 == j) ∘
        (fun p : Nat × Nat => if p.1 == j then (j, k) else p)) =
        (fun q : Nat × Nat => q.1 == j) := by
      funext q
      by_cases h : q.1 = j <;> simp [h]
    rw [hpred]
    cases hf : row.find? (fun q => q.1 == j) with
    | none =>
      exfalso
      have := List.find?_eq_none.mp hf p hp
      exact this hpj
    | some q =>
      have hq := List.find?_some hf
      rw [Option.map_some']
      rw [hq]
      rfl
  · unfold rowGet
    rw [List.find?_append]
    rename_i hany
    have hanyf : row.any (fun p => p.1 == j) = false := by
      rw [← Bool.not_eq_true]; exact hany
    have hnone : row.find? (fun p => p.1 == j) = none := by
      rw [List.find?_eq_none]
      intro p hp
      exact List.any_eq_false.mp hanyf p hp
    rw [hnone]
    rw [List.find?_cons_of_pos _ (by simp)]
    rfl

theorem rowGet_rowSet_ne (row : List (Nat × Nat)) (j k j' : Nat)
    (hne : j' ≠ j) : rowGet (rowSet row j k) j' = rowGet row j' := by
  unfold rowSet
  split
  · unfold rowGet
    rw [List.find?_map]
    have hpred : ((fun q : Nat × Nat => q.1 == j') ∘
        (fun p : Nat × Nat => if p.1 == j then (j, k) else p)) =
        (fun q : Nat × Nat => q.1 == j') := by
      funext q
      by_cases h : q.1 = j
      · simp [h, Ne.symm hne]
      · simp [h]
    rw [hpred]
    cases hf : row.find? (fun q => q.1 == j') with
    | none => rfl
    | some q =>
      have hq := List.find?_some hf
      simp only [beq_iff_eq] at hq
      rw [Option.map_some']
      show (if (q.1 == j) = true then (j, k) else q).2 = q.2
      rw [if_neg (by simp [hq, hne])]
  · unfold rowGet
    rw [List.find?_append]
    cases hf : row.find? (fun q => q.1 == j') with
    | none =>
      rw [List.find?_cons_of_neg _ (by simp [Ne.symm hne])]
      rfl
    | some q => rfl

theorem mem_rowBucket_self (x : List α) (i j : Nat)
    (hj : j ∈ rowBucket x x 0 x.length i) :
    x.get? j = x.get? i ∧ j < x.length ∧
    popAt x j = false ∧ popAt x i = false := by
  unfold rowBucket at hj
  cases hv : x.get? i with
  | none => rw [hv] at hj; simp at hj
  | some v =>
    rw [hv] at hj
    rw [List.mem_filter] at hj
    unfold b2j at hj
    rcases hj with ⟨hj1, _⟩
    by_cases hpop : isPopular x v = true
    · rw [if_pos hpop] at hj1; simp at hj1
    · rw [if_neg hpop] at hj1
      rw [List.mem_filter, List.mem_range] at hj1
      rcases hj1 with ⟨hjr, hjv⟩
      simp only [decide_eq_true_eq] at hjv
      refine ⟨by rw [hjv], hjr, ?_, ?_⟩
      · unfold popAt
        rw [hjv]
        simpa using hpop
      · unfold popAt
        rw [hv]
        simpa using hpop

theorem self_mem_rowBucket (x : List α) (i : Nat) (hi : i < x.length)
    (hp : popAt x i = false) : i ∈ rowBucket x x 0 x.length i := by
  unfold rowBucket
  cases hv : x.get? i with
  | none =>
    exfalso
    rw [List.get?_eq_none] at hv
    omega
  | some v =>
    rw [List.mem_filter]
    unfold b2j
    unfold popAt at hp
    rw [hv] at hp
    have hp' : isPopular x v = false := by simpa using hp
    rw [if_neg (by simp [hp'])]
    rw [List.mem_filter, List.mem_range]
    refine ⟨⟨hi, ?_⟩, ?_⟩
    · simpa using hv
    · simp [hi]

theorem rowBucket_pop_empty (x : List α) (n i : Nat)
    (hp : popAt x i = true) : rowBucket x x 0 n i = [] := by
  unfold rowBucket
  unfold popAt at hp
  cases hv : x.get? i with
  | none => rfl
  | some v =>
    rw [hv] at hp
    have hp' : isPopular x v = true := by simpa using hp
    show (b2j x v).filter (fun j => decide (0 ≤ j) && decide (j < n)) = []
    unfold b2j
    rw [if_pos hp']
    rfl

theorem rowBucket_sorted (x : List α) (n i : Nat) :
    (rowBucket x x 0 n i).Pairwise (· < ·) := by
  unfold rowBucket
  cases x.get? i with
  | none => exact List.Pairwise.nil
  | some v =>
    apply List.Pairwise.filter
    unfold b2j
    split
    · exact List.Pairwise.nil
    · exact (List.pairwise_lt_range _).filter _

/-- The best-block state before the diagonal position of row `i` has been
visited: on the diagonal, zero or genuine and ending by row `i`, dominating
every non-popular run ending before row `i`. -/
def RowPend (x : List α) (i : Nat) (best : Nat × Nat × Nat) : Prop :=
  best.1 = best.2.1 ∧
  (best = (0, 0, 0) ∨ (1 ≤ best.2.2 ∧ best.1 + best.2.2 ≤ i)) ∧
  (∀ t, t < i → njF x t ≤ best.2.2)

/-- The state after the diagonal position of row `i` has been visited: the
best block additionally dominates the run ending at `i`, and the new row
stores that run length exactly at its diagonal entry. -/
def RowOut (x : List α) (i : Nat) (st : (Nat × Nat × Nat) × List (Nat × Nat)) :
    Prop :=
  st.1.1 = st.1.2.1 ∧
  (st.1 = (0, 0, 0) ∨ (1 ≤ st.1.2.2 ∧ st.1.1 + st.1.2.2 ≤ i + 1)) ∧
  (∀ t, t < i → njF x t ≤ st.1.2.2) ∧ njF x i ≤ st.1.2.2 ∧
  (∀ j, rowGet st.2 j ≤ njF x j ∧ rowGet st.2 j ≤ njF x i) ∧
  rowGet st.2 i = njF x i

theorem RowOut_mk (x : List α) (i : Nat) (b1 b2 b3 : Nat)
    (row : List (Nat × Nat)) (h1 : b1 = b2)
    (h2 : (b1, b2, b3) = ((0, 0, 0) : Nat × Nat × Nat) ∨
      (1 ≤ b3 ∧ b1 + b3 ≤ i + 1))
    (h3 : ∀ t, t < i → njF x t ≤ b3) (h4 : njF x i ≤ b3)
    (h5 : ∀ j, rowGet row j ≤ njF x j ∧ rowGet row j ≤ njF x i)
    (h6 : rowGet row i = njF x i) :
    RowOut x i ((b1, b2, b3), row) :=
  ⟨h1, h2, h3, h4, h5, h6⟩

/-- Processing one bucket of the self-comparison keeps the best block on the
diagonal: entries are bounded by the `njF` runs on both coordinates, the
bound is reached exactly at the diagonal, and the ascending bucket visits
the diagonal before any position to its right, so no off-diagonal position
can ever strictly beat the running best. -/
theorem flmRow_self_inv (x : List α) (i : Nat) (prev : List (Nat × Nat))
    (hpop : popAt x i = false)
    (hprev : ∀ j, rowGet prev j ≤ njF x j ∧ rowGet prev j ≤ njPred x i)
    (hprevd : rowPrev prev i = njPred x i) :
    ∀ js best row,
      js.Pairwise (· < ·) →
      (∀ j ∈ js, popAt x j = false) →
      (∀ j, rowGet row j ≤ njF x j ∧ rowGet row j ≤ njF x i) →
      ((i ∈ js ∧ RowPend x i best) ∨ (i ∉ js ∧ RowOut x i (best, row))) →
      RowOut x i (flmRow i prev (best, row) js) := by
  intro js
  induction js with
  | nil =>
    intro best row _ _ hrow hinv
    rcases hinv with ⟨habs, _⟩ | ⟨_, hout⟩
    · exact absurd habs (List.not_mem_nil i)
    · exact hout
  | cons j js ih =>
    intro best row hsort hpops hrow hinv
    have hpj : popAt x j = false := hpops j (by simp)
    have hsort' := List.pairwise_cons.mp hsort
    have hk1 : rowPrev prev j + 1 ≤ njF x j := by
      rw [njF_of_not_pop x j hpj]
      unfold rowPrev
      split
      · omega
      · rename_i hj0
        have h1 := (hprev (j - 1)).1
        have hnp : njPred x j = njF x (j - 1) := by
          cases j with
          | zero => exact absurd rfl hj0
          | succ t => simp [njPred]
        omega
    have hk2 : rowPrev prev j + 1 ≤ njF x i := by
      rw [njF_of_not_pop x i hpop]
      unfold rowPrev
      split
      · omega
      · have := (hprev (j - 1)).2
        omega
    have hrow' : ∀ j',
        rowGet (rowSet row j (rowPrev prev j + 1)) j' ≤ njF x j' ∧
        rowGet (rowSet row j (rowPrev prev j + 1)) j' ≤ njF x i := by
      intro j'
      by_cases hjj : j' = j
      · subst hjj
        rw [rowGet_rowSet_self]
        exact ⟨hk1, hk2⟩
      · rw [rowGet_rowSet_ne _ _ _ _ hjj]
        exact hrow j'
    rw [flmRow]
    rcases hinv with ⟨hmem, hdiag, hor, hdom⟩ | ⟨hnmem, hB⟩
    · rcases List.mem_cons.mp hmem with hji | hji
      · -- the diagonal position of row i
        subst hji
        have hkdiag : rowPrev prev i + 1 = njF x i := by
          rw [hprevd, ← njF_of_not_pop x i hpop]
        have hnotin : i ∉ js := by
          intro hin
          exact absurd (hsort'.1 i hin) (lt_irrefl i)
        have hnjle : njF x i ≤ i + 1 := njF_le x i
        by_cases hrec : best.2.2 < rowPrev prev i + 1
        · rw [if_pos hrec]
          refine ih _ _ hsort'.2 (fun y hy => hpops y (by simp [hy]))
            hrow' (Or.inr ⟨hnotin,
              RowOut_mk x i _ _ _ _ rfl (Or.inr ⟨by omega, by omega⟩)
                (fun t ht => by have := hdom t ht; omega) (by omega)
                hrow' ?_⟩)
          rw [rowGet_rowSet_self]
          exact hkdiag
        · rw [if_neg hrec]
          refine ih _ _ hsort'.2 (fun y hy => hpops y (by simp [hy]))
            hrow' (Or.inr ⟨hnotin,
              RowOut_mk x i best.1 best.2.1 best.2.2 _ hdiag ?_
                hdom (by omega) hrow' ?_⟩)
          · rcases hor with h | h
            · exact Or.inl h
            · exact Or.inr ⟨h.1, by omega⟩
          · rw [rowGet_rowSet_self]
            exact hkdiag
      · -- a position strictly left of the diagonal
        have hji' : j < i := hsort'.1 i hji
        have hnorec : ¬ best.2.2 < rowPrev prev j + 1 := by
          have h2 := hdom j hji'
          omega
        rw [if_neg hnorec]
        exact ih _ _ hsort'.2 (fun y hy => hpops y (by simp [hy])) hrow'
          (Or.inl ⟨hji, hdiag, hor, hdom⟩)
    · -- the diagonal has already been visited: no further record is possible
      have hdiag : best.1 = best.2.1 := hB.1
      have hor : best = (0, 0, 0) ∨ (1 ≤ best.2.2 ∧ best.1 + best.2.2 ≤ i + 1) :=
        hB.2.1
      have hdom : ∀ t, t < i → njF x t ≤ best.2.2 := hB.2.2.1
      have hdomi : njF x i ≤ best.2.2 := hB.2.2.2.1
      have hrd : rowGet row i = njF x i := hB.2.2.2.2.2
      have hjne : j ≠ i := by
        intro h
        exact hnmem (by simp [h])
      have hnorec : ¬ best.2.2 < rowPrev prev j + 1 := by
        omega
      rw [if_neg hnorec]
      refine ih _ _ hsort'.2 (fun y hy => hpops y (by simp [hy])) hrow'
        (Or.inr ⟨fun hin => hnmem (by simp [hin]),
          RowOut_mk x i best.1 best.2.1 best.2.2 _ hdiag hor hdom hdomi
            hrow' ?_⟩)
      rw [rowGet_rowSet_ne _ _ _ _ (Ne.symm hjne)]
      exact hrd

/-- The rows-level invariant of the self-comparison DP sweep, on entry to
row `i`. -/
def SelfDP (x : List α) (i : Nat)
    (st : (Nat × Nat × Nat) × List (Nat × Nat)) : Prop :=
  st.1.1 = st.1.2.1 ∧
  (st.1 = (0, 0, 0) ∨ (1 ≤ st.1.2.2 ∧ st.1.1 + st.1.2.2 ≤ i)) ∧
  (∀ t, t < i → njF x t ≤ st.1.2.2) ∧
  (∀ j, rowGet st.2 j ≤ njF x j ∧ rowGet st.2 j ≤ njPred x i) ∧
  rowPrev st.2 i = njPred x i

theorem SelfDP_mk (x : List α) (i : Nat) (best : Nat × Nat × Nat)
    (prev : List (Nat × Nat)) (h1 : best.1 = best.2.1)
    (h2 : best = (0, 0, 0) ∨ (1 ≤ best.2.2 ∧ best.1 + best.2.2 ≤ i))
    (h3 : ∀ t, t < i → njF x t ≤ best.2.2)
    (h4 : ∀ j, rowGet prev j ≤ njF x j ∧ rowGet prev j ≤ njPred x i)
    (h5 : rowPrev prev i = njPred x i) : SelfDP x i (best, prev) :=
  ⟨h1, h2, h3, h4, h5⟩

theorem flmRows_self_inv (x : List α) :
    ∀ (cnt i : Nat) (best : Nat × Nat × Nat) (prev : List (Nat × Nat)),
      i + cnt ≤ x.length →
      SelfDP x i (best, prev) →
      SelfDP x (i + cnt)
        (flmRows x x 0 x.length (List.range' i cnt) (best, prev)) := by
  intro cnt
  induction cnt with
  | zero =>
    intro i best prev _ h
    exact h
  | succ cnt ih =>
    intro i best prev hle h
    have h1 : best.1 = best.2.1 := h.1
    have h2 : best = (0, 0, 0) ∨ (1 ≤ best.2.2 ∧ best.1 + best.2.2 ≤ i) :=
      h.2.1
    have h3 : ∀ t, t < i → njF x t ≤ best.2.2 := h.2.2.1
    have h4 : ∀ j, rowGet prev j ≤ njF x j ∧ rowGet prev j ≤ njPred x i :=
      h.2.2.2.1
    have h5 : rowPrev prev i = njPred x i := h.2.2.2.2
    rw [List.range'_succ, flmRows]
    have hadd : i + (cnt + 1) = (i + 1) + cnt := by omega
    rw [hadd]
    by_cases hpop : popAt x i = true
    · rw [rowBucket_pop_empty x x.length i hpop]
      have hnj0 : njF x i = 0 := njF_of_pop x i hpop
      exact ih (i + 1) best [] (by omega)
        (SelfDP_mk x (i + 1) best [] h1
          (by
            rcases h2 with h | h
            · exact Or.inl h
            · exact Or.inr ⟨h.1, by omega⟩)
          (by
            intro t ht
            by_cases hti : t = i
            · rw [hti, hnj0]
              exact Nat.zero_le _
            · exact h3 t (by omega))
          (fun j => ⟨Nat.zero_le _, Nat.zero_le _⟩)
          (by
            unfold rowPrev
            rw [if_neg (Nat.succ_ne_zero i)]
            show (0 : Nat) = njPred x (i + 1)
            show (0 : Nat) = njF x i
            exact hnj0.symm))
    · have hpop' : popAt x i = false := by
        cases hp : popAt x i with
        | false => rfl
        | true => exact absurd hp hpop
      have hi : i < x.length := by omega
      have hout := flmRow_self_inv x i prev hpop' h4 h5
        (rowBucket x x 0 x.length i) best []
        (rowBucket_sorted x x.length i)
        (fun j hj => (mem_rowBucket_self x i j hj).2.2.1)
        (fun j => ⟨Nat.zero_le _, Nat.zero_le _⟩)
        (Or.inl ⟨self_mem_rowBucket x i hi hpop', h1, h2, h3⟩)
      set st' := flmRow i prev (best, []) (rowBucket x x 0 x.length i)
        with hst
      have o1 : st'.1.1 = st'.1.2.1 := hout.1
      have o2 : st'.1 = (0, 0, 0) ∨
          (1 ≤ st'.1.2.2 ∧ st'.1.1 + st'.1.2.2 ≤ i + 1) := hout.2.1
      have o3 : ∀ t, t < i → njF x t ≤ st'.1.2.2 := hout.2.2.1
      have o4 : njF x i ≤ st'.1.2.2 := hout.2.2.2.1
      have o5 : ∀ j, rowGet st'.2 j ≤ njF x j ∧ rowGet st'.2 j ≤ njF x i :=
        hout.2.2.2.2.1
      have o6 : rowGet st'.2 i = njF x i := hout.2.2.2.2.2
      exact ih (i + 1) st'.1 st'.2 (by omega)
        (SelfDP_mk x (i + 1) st'.1 st'.2 o1 o2
          (by
            intro t ht
            by_cases hti : t = i
            · rw [hti]
              exact o4
            · exact o3 t (by omega))
          (fun j => ⟨(o5 j).1, (o5 j).2⟩)
          (by
            unfold rowPrev
            rw [if_neg (Nat.succ_ne_zero i)]
            exact o6))

theorem flmDP_self (x : List α) :
    (flmDP x x 0 x.length 0 x.length).1 =
      (flmDP x x 0 x.length 0 x.length).2.1 ∧
    (flmDP x x 0 x.length 0 x.length).1 +
      (flmDP x x 0 x.length 0 x.length).2.2 ≤ x.length := by
  have h := flmRows_self_inv x x.length 0 (0, 0, 0) [] (by omega)
    (SelfDP_mk x 0 (0, 0, 0) [] rfl (Or.inl rfl)
      (fun t ht => absurd ht (Nat.not_lt_zero t))
      (fun j => ⟨Nat.zero_le _, Nat.zero_le _⟩) rfl)
  have hd : (flmDP x x 0 x.length 0 x.length).1 =
      (flmDP x x 0 x.length 0 x.length).2.1 := h.1
  have ho : (flmDP x x 0 x.length 0 x.length) = (0, 0, 0) ∨
      (1 ≤ (flmDP x x 0 x.length 0 x.length).2.2 ∧
        (flmDP x x 0 x.length 0 x.length).1 +
          (flmDP x x 0 x.length 0 x.length).2.2 ≤ 0 + x.length) := h.2.1
  refine ⟨hd, ?_⟩
  rcases ho with h0 | ⟨_, hb⟩
  · rw [h0]
    simp
  · omega

theorem extendLeft_self (x : List α) :
    ∀ d s, extendLeft x x 0 0 d d s = (0, 0, s + d) := by
  intro d
  induction d with
  | zero => intro s; rfl
  | succ d ih =>
    intro s
    rw [extendLeft]
    rw [if_pos ⟨Nat.succ_pos d, Nat.succ_pos d, rfl⟩]
    rw [show s + (d + 1) = s + 1 + d from by omega]
    exact ih (s + 1)

theorem extendRightAux_self (x : List α) :
    ∀ gap bs, bs + gap ≤ x.length →
      extendRightAux x x x.length x.length 0 0 gap bs = bs + gap := by
  intro gap
  induction gap with
  | zero => intro bs _; rfl
  | succ gap ih =>
    intro bs hle
    rw [extendRightAux]
    rw [if_pos ⟨by omega, by omega, rfl⟩]
    rw [show bs + (gap + 1) = bs + 1 + gap from by omega]
    exact ih (bs + 1) (by omega)

/-- On the full self-comparison window, `find_longest_match` returns the whole
diagonal: the DP best is diagonal, and the equality extensions stretch any
diagonal block to the full length. -/
theorem findLongestMatch_self (x : List α) :
    findLongestMatch x x 0 x.length 0 x.length = (0, 0, x.length) := by
  obtain ⟨hdiag, hle⟩ := flmDP_self x
  have key : ∀ d : Nat × Nat × Nat, d.1 = d.2.1 → d.1 + d.2.2 ≤ x.length →
      ((extendLeft x x 0 0 d.1 d.2.1 d.2.2).1,
       (extendLeft x x 0 0 d.1 d.2.1 d.2.2).2.1,
       extendRight x x x.length x.length
         (extendLeft x x 0 0 d.1 d.2.1 d.2.2).1
         (extendLeft x x 0 0 d.1 d.2.1 d.2.2).2.1
         (extendLeft x x 0 0 d.1 d.2.1 d.2.2).2.2) = (0, 0, x.length) := by
    intro d h1 h2
    rw [← h1]
    rw [extendLeft_self x d.1 d.2.2]
    show ((0 : Nat), (0 : Nat),
      extendRight x x x.length x.length 0 0 (d.2.2 + d.1)) = (0, 0, x.length)
    unfold extendRight
    rw [show extendRightAux x x x.length x.length 0 0
        (x.length - (0 + (d.2.2 + d.1))) (d.2.2 + d.1) =
        (d.2.2 + d.1) + (x.length - (0 + (d.2.2 + d.1))) from
      extendRightAux_self x _ _ (by omega)]
    rw [show (d.2.2 + d.1) + (x.length - (0 + (d.2.2 + d.1))) = x.length from
      by omega]
  exact key (flmDP x x 0 x.length 0 x.length) hdiag hle

theorem matchingBlocksRec_self (x : List α) (hx : x.length ≠ 0) :
    matchingBlocksRec x x 0 x.length 0 x.length = [(0, 0, x.length)] := by
  have hflm := findLongestMatch_self x
  unfold matchingBlocksRec
  rw [Nat.sub_zero]
  cases hn : x.length with
  | zero => exact absurd hn hx
  | succ k =>
    rw [hn] at hflm
    rw [matchingBlocksAux]
    simp [hflm]

theorem getMatchingBlocks_self (x : List α) (hx : x ≠ []) :
    getMatchingBlocks x x = [(0, 0, x.length), (x.length, x.length, 0)] := by
  have hlen : x.length ≠ 0 := by
    have := List.length_pos.mpr hx
    omega
  unfold getMatchingBlocks
  rw [matchingBlocksRec_self x hlen]
  have hcol : collapseBlocks ((0 : Nat), (0 : Nat), (0 : Nat))
      [((0 : Nat), (0 : Nat), x.length)] = [((0 : Nat), (0 : Nat), x.length)]
      := by
    rw [collapseBlocks]
    rw [if_pos ⟨rfl, rfl⟩]
    rw [collapseBlocks]
    simp [hlen]
  rw [hcol]
  rfl

end SeqMatcher

/-!
## The Compare class methods
-/

/-- A single quote character (U+0027), used by the Russian description
strings of `src/compare.py`. -/
def sq : String := String.singleton (Char.ofNat 39)

def quoted (s : String) : String := sq ++ s ++ sq

/-- `Compare._calculate_similarity`: `1.0` exactly when the normalized texts
are equal, otherwise the `SequenceMatcher` ratio of the normalized strings. -/
def calculateSimilarity (text1 text2 : String) : ℚ :=
  let norm1 := normalizeText text1
  let norm2 := normalizeText text2
  if norm1 = norm2 then 1
  else ratioQ norm1.data norm2.data

/-- `Compare._find_best_match_by_content`: scan all non-excluded indices and
keep the first strict maximum of the `SequenceMatcher` ratio; `(-1, 0.0)`
when nothing scores above `0.0`.  The similarity here is computed directly
with `difflib.SequenceMatcher(None, ...).ratio()`, not with
`_calculate_similarity`. -/
def fbmStep (normalizedText : String) (excludedIndices : List Nat)
    (st : Int × ℚ) (p : Nat × String) : Int × ℚ :=
  if p.1 ∈ excludedIndices then st
  else
    let similarity := ratioQ normalizedText.data p.2.data
    if st.2 < similarity then ((p.1 : Int), similarity) else st

def findBestMatchByContent (normalizedText : String)
    (normalizedTexts : List String) (excludedIndices : List Nat) : Int × ℚ :=
  normalizedTexts.enum.foldl (fbmStep normalizedText excludedIndices)
    ((-1 : Int), (0 : ℚ))

/-- Python list indexing `paragraphs[i]` for a possibly negative `i`
(negative indices address the list from its end); out-of-range access is
modelled by `""` (Python would raise `IndexError`, which the verified
call sites never do). -/
def pyGetStr (l : List String) (i : Int) : String :=
  if 0 ≤ i then l.getD i.toNat ""
  else l.getD (l.length - (-i).toNat) ""

/-- `str.lower()`, as a character-by-character map.  `Char.toLower` folds
ASCII letters only; the claims proved below depend only on both comparison
sides using the same folding. -/
def pyToLower (s : String) : String := ⟨s.data.map Char.toLower⟩

/-- `re.split(r'[.!?]\s+', s)`: split on a sentence-ending punctuation
character followed by at least one whitespace character, consuming the
separator. -/
def isSentEnd (c : Char) : Bool := c == '.' || c == '!' || c == '?'

theorem dropWhileLen (p : Char → Bool) (l : List Char) :
    (l.dropWhile p).length ≤ l.length := by
  induction l with
  | nil => simp [List.dropWhile]
  | cons c rest ih =>
    rw [List.dropWhile]
    split
    · simp only [List.length_cons]; omega
    · simp

def splitSentAux (cur : List Char) : List Char → List String
  | [] => [⟨cur.reverse⟩]
  | c :: rest =>
    if isSentEnd c then
      match rest with
      | [] => [⟨(c :: cur).reverse⟩]
      | c2 :: rest2 =>
        if isPySpace c2 then
          ⟨cur.reverse⟩ :: splitSentAux [] ((c2 :: rest2).dropWhile isPySpace)
        else splitSentAux (c :: cur) (c2 :: rest2)
    else splitSentAux (c :: cur) rest
termination_by l => l.length
decreasing_by
  all_goals simp only [List.length_cons]
  all_goals try omega
  all_goals exact Nat.lt_succ_of_le (le_trans (dropWhileLen isPySpace _) (by simp))

def splitSentences (s : String) : List String :=
  splitSentAux [] s.data

/-- Was index `t` placed in `matched_sentences_1` (the union of the `a`-side
ranges of the matching blocks of positive size)? -/
def inBlocksA (blocks : List (Nat × Nat × Nat)) (t : Nat) : Bool :=
  blocks.any (fun blk =>
    decide (0 < blk.2.2) && decide (blk.1 ≤ t) && decide (t < blk.1 + blk.2.2))

def inBlocksB (blocks : List (Nat × Nat × Nat)) (t : Nat) : Bool :=
  blocks.any (fun blk =>
    decide (0 < blk.2.2) && decide (blk.2.1 ≤ t) &&
      decide (t < blk.2.1 + blk.2.2))

/-- `' '.join(words[i1:i2])`. -/
def joinSlice (ws : List String) (i1 i2 : Nat) : String :=
  spaceJoin ((ws.drop i1).take (i2 - i1))

def formattingOnlyMsg (t : String) : String :=
  "Изменено только форматирование. Текст: " ++ quoted t

def oldTextMsg (t : String) : String := "Старый текст: " ++ quoted t

def newTextMsg (t : String) : String := "Новый текст: " ++ quoted t

/-- The sentence-level diff of `_get_differences`: unmatched stripped
sentences of either side. -/
def diffSentences (norm1 norm2 : String) : List String :=
  let sentences1 := splitSentences norm1
  let sentences2 := splitSentences norm2
  let blocks := getMatchingBlocks sentences1 sentences2
  (sentences1.enum.filterMap (fun p =>
    if ¬ inBlocksA blocks p.1 ∧ pyStrip p.2 ≠ "" then
      some ("Удалено предложение: " ++ quoted (pyStrip p.2))
    else none)) ++
  (sentences2.enum.filterMap (fun p =>
    if ¬ inBlocksB blocks p.1 ∧ pyStrip p.2 ≠ "" then
      some ("Добавлено предложение: " ++ quoted (pyStrip p.2))
    else none))

/-- The word-level opcode diff of `_get_differences`. -/
def diffWords (norm1 norm2 : String) : List String :=
  let words1 := pySplit norm1
  let words2 := pySplit norm2
  (getOpcodes words1 words2).filterMap (fun op =>
    if op.1 = "delete" then
      let removed := joinSlice words1 op.2.1 op.2.2.1
      if removed ≠ "" then some ("Удалено: " ++ quoted removed) else none
    else if op.1 = "insert" then
      let added := joinSlice words2 op.2.2.2.1 op.2.2.2.2
      if added ≠ "" then some ("Добавлено: " ++ quoted added) else none
    else if op.1 = "replace" then
      let removed := joinSlice words1 op.2.1 op.2.2.1
      let added := joinSlice words2 op.2.2.2.1 op.2.2.2.2
      if removed ≠ "" ∧ added ≠ "" then
        some (quoted removed ++ " изменено на " ++ quoted added)
      else none
    else none)

/-- The long-text tail of `_get_differences`: sentence diff, word-diff
fallback, full-text fallback, truncation to 10 entries. -/
def diffLong (text1 text2 norm1 norm2 : String) : List String :=
  let differences := diffSentences norm1 norm2
  let differences :=
    if differences = [] then diffWords norm1 norm2 else differences
  let differences :=
    if differences = [] then [oldTextMsg text1, newTextMsg text2]
    else differences
  differences.take 10

/-- `Compare._get_differences`. -/
def getDifferences (text1 text2 : String) : List String :=
  let norm1 := normalizeText text1
  let norm2 := normalizeText text2
  if norm1 = norm2 ∧ text1 ≠ text2 then [formattingOnlyMsg text1]
  else if norm1.length < 100 ∧ norm2.length < 100 then
    if norm1 ≠ norm2 then [oldTextMsg text1, newTextMsg text2] else []
  else diffLong text1 text2 norm1 norm2

/-- `Compare._determine_change_type`. -/
def determineChangeType (text1 text2 : String) : String :=
  let norm1 := normalizeText text1
  let norm2 := normalizeText text2
  if norm1 = norm2 then "Изменение форматирования"
  else
    let words1 := (pySplit (pyToLower norm1)).toFinset
    let words2 := (pySplit (pyToLower norm2)).toFinset
    if words1 = words2 then "Изменение порядка слов"
    else
      let added := words2 \ words1
      let removed := words1 \ words2
      if added ≠ ∅ ∧ removed = ∅ then "Добавление текста"
      else if removed ≠ ∅ ∧ added = ∅ then "Удаление текста"
      else if removed.card * 2 < added.card then "Значительное добавление"
      else if added.card * 2 < removed.card then "Значительное удаление"
      else "Изменение содержания"

/-!
## `Compare._compare_documents`

Paragraphs carry metadata (`style`, `section_index`, `full_path`, `page`, …)
that `_compare_documents` copies verbatim into its result dicts without ever
branching on it; the embedding therefore represents a paragraph by its
`"text"` field alone, and a result dict by the fields the comparison logic
actually computes.  The display-only field `change_description`
(`_build_change_description`) and the LLM enrichment field are likewise
derived strings that no control flow reads back; they are not modelled. -/

/-- The result dict of one paragraph comparison.  Indices are the 1-based
Python values `idx + 1` (stored as `Int`, since the fallback branch adds `1`
to a Python `int` that is `-1` when no candidate exists). -/
structure ParaRecord where
  index1 : Option Int
  text1 : Option String
  index2 : Option Int
  text2 : Option String
  status : String
  similarity : ℚ
  differences : List String
  changeType : String
deriving DecidableEq, Repr

/-- `set.add` on an insertion-ordered duplicate-free list. -/
def setAdd (s : List Nat) (x : Nat) : List Nat :=
  if x ∈ s then s else s ++ [x]

/-- `dict[k] = v` on an insertion-ordered association list. -/
def dictSet (m : List (Nat × Nat)) (k v : Nat) : List (Nat × Nat) :=
  if m.any (fun p => p.1 == k) then
    m.map (fun p => if p.1 == k then (k, v) else p)
  else m ++ [(k, v)]

def dictFind (m : List (Nat × Nat)) (k : Nat) : Option Nat :=
  (m.find? (fun p => p.1 == k)).map (fun p => p.2)

/-- The consumed-index bookkeeping of `_compare_documents`
(`match_map`, `matched_indices_1`, `matched_indices_2`). -/
structure MatchState where
  matchMap : List (Nat × Nat)
  matched1 : List Nat
  matched2 : List Nat
deriving Repr

/-- Step 5 of `_compare_documents`: walk the matching blocks and record the
position-based pairs. -/
def posStage (n m : Nat) (blocks : List (Nat × Nat × Nat)) : MatchState :=
  blocks.foldl
    (fun st blk =>
      if 0 < blk.2.2 then
        (List.range blk.2.2).foldl
          (fun st off =>
            let idx1 := blk.1 + off
            let idx2 := blk.2.1 + off
            if idx1 < n ∧ idx2 < m then
              { matchMap := dictSet st.matchMap idx1 idx2,
                matched1 := setAdd st.matched1 idx1,
                matched2 := setAdd st.matched2 idx2 }
            else st)
          st
      else st)
    ⟨[], [], []⟩

/-- The fingerprint index of step 3 (`fingerprint_index2`), as a lookup:
the ascending indices of document 2 sharing fingerprint `fp`, with empty
fingerprints never indexed.  (Buckets are built by an ascending loop over
`enumerate(paragraphs2)`, so insertion order is ascending index order.) -/
def fingerprintBucket (fps2 : List String) (fp : String) : List Nat :=
  if fp = "" then []
  else (List.range fps2.length).filter (fun j => fps2.getD j "" == fp)

/-- Step 6 of `_compare_documents`: for every paragraph of document 1, scan
the fingerprint bucket for the first unconsumed candidate that is equal after
normalization or at least `similarity_threshold_high`-similar, and commit it
if the paragraph is still unmatched.  (In the source the `idx1 not in
match_map` guard sits inside the candidate loop without a `break` on the
failing side, so a matched `idx1` scans without any effect — equivalent to
doing nothing, as modelled here.) -/
def fpStage (normalized1 normalized2 fps1 fps2 : List String)
    (st : MatchState) : MatchState :=
  (List.range fps1.length).foldl
    (fun st idx1 =>
      let fp1 := fps1.getD idx1 ""
      let candidates := fingerprintBucket fps2 fp1
      if candidates ≠ [] then
        let norm1 := normalized1.getD idx1 ""
        match candidates.find? (fun idx2 =>
          !(st.matched2.contains idx2) &&
          (let norm2 := normalized2.getD idx2 ""
           norm1 == norm2 ||
             decide (simThresholdHigh ≤ calculateSimilarity norm1 norm2))) with
        | some idx2 =>
          if (dictFind st.matchMap idx1).isSome then st
          else
            { matchMap := dictSet st.matchMap idx1 idx2,
              matched1 := setAdd st.matched1 idx1,
              matched2 := setAdd st.matched2 idx2 }
        | none => st
      else st)
    st

/-- The matched-pair branch of the per-paragraph loop: status from the
similarity thresholds.  The two sub-branches for similarity at or below
`similarity_threshold_medium` have identical bodies in the source; the
conditional is kept as written. -/
def classifyMatched (text1 text2 : String) (idx1 idx2 : Nat) : ParaRecord :=
  let similarity := calculateSimilarity text1 text2
  if simThresholdIdentical ≤ similarity then
    { index1 := some ((idx1 : Int) + 1), text1 := some text1,
      index2 := some ((idx2 : Int) + 1), text2 := some text2,
      status := "identical", similarity := similarity,
      differences := [], changeType := "Без изменений" }
  else if simThresholdMedium ≤ similarity then
    { index1 := some ((idx1 : Int) + 1), text1 := some text1,
      index2 := some ((idx2 : Int) + 1), text2 := some text2,
      status := "modified", similarity := similarity,
      differences := getDifferences text1 text2,
      changeType := determineChangeType text1 text2 }
  else
    { index1 := some ((idx1 : Int) + 1), text1 := some text1,
      index2 := some ((idx2 : Int) + 1), text2 := some text2,
      status := "modified", similarity := similarity,
      differences := getDifferences text1 text2,
      changeType := determineChangeType text1 text2 }

/-- One iteration of the `for idx1, para1 in enumerate(paragraphs1)` loop:
produce this paragraph's record and update `matched_indices_2` if the
fallback branch consumed a new index.  (`matched_indices_2.add(best_match_idx)`
stores a Python `int`; it is recorded here as `best.1.toNat`, which agrees
with the source whenever the commit guard `best_similarity >=
similarity_threshold_low` is reached with a real candidate — `bestMatch_nonneg`
below proves the guard implies `0 ≤ best.1`.) -/
def mainStep (paragraphs1 paragraphs2 normalized1 normalized2 : List String)
    (matchMap : List (Nat × Nat))
    (acc : List ParaRecord × List Nat) (idx1 : Nat) :
    List ParaRecord × List Nat :=
  let para1 := paragraphs1.getD idx1 ""
  match dictFind matchMap idx1 with
  | some idx2 =>
    let para2 := paragraphs2.getD idx2 ""
    (acc.1 ++ [classifyMatched para1 para2 idx1 idx2], acc.2)
  | none =>
    let nt1 := normalized1.getD idx1 ""
    let best := findBestMatchByContent nt1 normalized2 acc.2
    if simThresholdLow ≤ best.2 then
      let para2 := pyGetStr paragraphs2 best.1
      (acc.1 ++
        [{ index1 := some ((idx1 : Int) + 1), text1 := some para1,
           index2 := some (best.1 + 1), text2 := some para2,
           status := "modified", similarity := best.2,
           differences := getDifferences para1 para2,
           changeType := determineChangeType para1 para2 }],
        setAdd acc.2 best.1.toNat)
    else
      (acc.1 ++
        [{ index1 := some ((idx1 : Int) + 1), text1 := some para1,
           index2 := none, text2 := none,
           status := "deleted", similarity := 0,
           differences := [], changeType := "Удален" }],
        acc.2)

/-- `Compare._compare_documents`, producing the `comparison_results` list. -/
def compareDocuments (paragraphs1 paragraphs2 : List String) :
    List ParaRecord :=
  let normalized1 := paragraphs1.map normalizeText
  let normalized2 := paragraphs2.map normalizeText
  let fps1 := paragraphs1.map getTextFingerprint
  let fps2 := paragraphs2.map getTextFingerprint
  let blocks := getMatchingBlocks normalized1 normalized2
  let st0 := posStage paragraphs1.length paragraphs2.length blocks
  let st1 := fpStage normalized1 normalized2 fps1 fps2 st0
  let main := (List.range paragraphs1.length).foldl
    (mainStep paragraphs1 paragraphs2 normalized1 normalized2 st1.matchMap)
    ([], st1.matched2)
  main.1 ++ (List.range paragraphs2.length).filterMap (fun idx2 =>
    if idx2 ∉ main.2 then
      some { index1 := none, text1 := none,
             index2 := some ((idx2 : Int) + 1),
             text2 := some (paragraphs2.getD idx2 ""),
             status := "added", similarity := 0,
             differences := [], changeType := "Добавлен" }
    else none)

/-- The paragraph-side fields of `Compare.get_statistics` (the table/image
tallies aggregate the separate `_compare_tables`/`_compare_images` outputs
and are orthogonal to the claims below). -/
structure Statistics where
  total : Nat
  identical : Nat
  modified : Nat
  added : Nat
  deleted : Nat
  identicalPercent : ℚ
  modifiedPercent : ℚ
  addedPercent : ℚ
  deletedPercent : ℚ
deriving DecidableEq, Repr

def getStatistics (results : List ParaRecord) : Statistics :=
  let total := results.length
  let identical := (results.filter (fun r => r.status == "identical")).length
  let modified := (results.filter (fun r => r.status == "modified")).length
  let added := (results.filter (fun r => r.status == "added")).length
  let deleted := (results.filter (fun r => r.status == "deleted")).length
  { total := total, identical := identical, modified := modified,
    added := added, deleted := deleted,
    identicalPercent := if 0 < total then (identical : ℚ) / total * 100 else 0,
    modifiedPercent := if 0 < total then (modified : ℚ) / total * 100 else 0,
    addedPercent := if 0 < total then (added : ℚ) / total * 100 else 0,
    deletedPercent := if 0 < total then (deleted : ℚ) / total * 100 else 0 }

/-- One cell change of `Compare._find_table_cell_changes` (1-based row and
column). -/
structure CellChange where
  row : Nat
  col : Nat
  oldValue : String
  newValue : String
deriving DecidableEq, Repr

/-- `Compare._find_table_cell_changes` on the two row grids
(`row1 = rows1[row_idx] if row_idx < len(rows1) else []` is `getD`, and a
missing cell is `""`).  The source also computes a `max_cols` bound over all
rows, but never uses it; the cell loop bound is per-row. -/
def findTableCellChanges (rows1 rows2 : List (List String)) : List CellChange :=
  (List.range (max rows1.length rows2.length)).flatMap (fun rowIdx =>
    (List.range (max (rows1.getD rowIdx []).length
        (rows2.getD rowIdx []).length)).filterMap (fun colIdx =>
      if (rows1.getD rowIdx []).getD colIdx "" ≠
          (rows2.getD rowIdx []).getD colIdx "" then
        some ⟨rowIdx + 1, colIdx + 1, (rows1.getD rowIdx []).getD colIdx "",
          (rows2.getD rowIdx []).getD colIdx ""⟩
      else none))

/-!
## Claim C9: idempotence of `_normalize_text`

Normalized text is *canonical*: every whitespace character in it is a plain
space, no two spaces are adjacent, and it neither starts nor ends with a
space.  Each normalization step fixes canonical strings.
-/

/-- No two adjacent whitespace characters. -/
def NoAdjSp (l : List Char) : Prop :=
  l.Chain' (fun a b => ¬(isPySpace a = true ∧ isPySpace b = true))

/-- All whitespace characters are plain spaces. -/
def AllSp (l : List Char) : Prop :=
  ∀ c ∈ l, isPySpace c = true → c = ' '

def HeadNonSp (l : List Char) : Prop :=
  ∀ c, l.head? = some c → isPySpace c = false

def LastNonSp (l : List Char) : Prop :=
  ∀ c, l.getLast? = some c → isPySpace c = false

theorem collapseWsAux_allSp : ∀ (b : Bool) (l : List Char),
    AllSp (collapseWsAux b l) := by
  intro b l
  induction l generalizing b with
  | nil => intro c hc; simp [collapseWsAux] at hc
  | cons c rest ih =>
    intro d hd hsp
    rw [collapseWsAux] at hd
    split at hd
    · split at hd
      · exact ih true d hd hsp
      · rcases List.mem_cons.mp hd with rfl | hd'
        · rfl
        · exact ih true d hd' hsp
    · rcases List.mem_cons.mp hd with rfl | hd'
      · rename_i hnsp
        exact absurd hsp (by simp [hnsp])
      · exact ih false d hd' hsp

theorem collapseWsAux_shape : ∀ (l : List Char),
    NoAdjSp (collapseWsAux false l) ∧ NoAdjSp (collapseWsAux true l) ∧
    HeadNonSp (collapseWsAux true l) := by
  intro l
  induction l with
  | nil =>
    refine ⟨List.chain'_nil, List.chain'_nil, ?_⟩
    intro c hc; simp [collapseWsAux] at hc
  | cons c rest ih =>
    by_cases hsp : isPySpace c = true
    · have htrue : collapseWsAux true (c :: rest) = collapseWsAux true rest := by
        rw [collapseWsAux, if_pos hsp, if_pos rfl]
      have hfalse : collapseWsAux false (c :: rest) =
          ' ' :: collapseWsAux true rest := by
        rw [collapseWsAux, if_pos hsp, if_neg Bool.false_ne_true]
      refine ⟨?_, ?_, ?_⟩
      · rw [hfalse]
        unfold NoAdjSp
        rw [List.chain'_cons']
        refine ⟨?_, ih.2.1⟩
        intro d hd
        have := ih.2.2 d hd
        simp [this]
      · rw [htrue]; exact ih.2.1
      · rw [htrue]; exact ih.2.2
    · have heq : ∀ b, collapseWsAux b (c :: rest) = c :: collapseWsAux false rest := by
        intro b
        rw [collapseWsAux, if_neg hsp]
      refine ⟨?_, ?_, ?_⟩
      · rw [heq]
        unfold NoAdjSp
        rw [List.chain'_cons']
        refine ⟨?_, ih.1⟩
        intro d _
        simp [hsp]
      · rw [heq]
        unfold NoAdjSp
        rw [List.chain'_cons']
        refine ⟨?_, ih.1⟩
        intro d _
        simp [hsp]
      · rw [heq]
        intro d hd
        simp only [List.head?_cons, Option.some.injEq] at hd
        subst hd
        simpa using hsp

theorem dropWhile_allSp (l : List Char) (h : AllSp l) :
    AllSp (l.dropWhile isPySpace) :=
  fun c hc => h c ((List.dropWhile_sublist isPySpace).mem hc)

theorem reverse_allSp (l : List Char) (h : AllSp l) : AllSp l.reverse :=
  fun c hc => h c (List.mem_reverse.mp hc)

theorem dropWhile_noAdj (l : List Char) (h : NoAdjSp l) :
    NoAdjSp (l.dropWhile isPySpace) := by
  induction l with
  | nil => simpa [List.dropWhile] using h
  | cons c rest ih =>
    rw [List.dropWhile_cons]
    by_cases hp : isPySpace c = true
    · rw [if_pos hp]
      exact ih (List.Chain'.tail h)
    · rw [if_neg hp]
      exact h

theorem reverse_noAdj (l : List Char) (h : NoAdjSp l) : NoAdjSp l.reverse := by
  unfold NoAdjSp at h ⊢
  rw [List.chain'_reverse]
  exact List.Chain'.imp (fun a b hab h2 => hab ⟨h2.2, h2.1⟩) h

theorem dropWhile_headNonSp (l : List Char) :
    HeadNonSp (l.dropWhile isPySpace) := by
  induction l with
  | nil => intro c hc; simp at hc
  | cons c rest ih =>
    rw [List.dropWhile_cons]
    by_cases hp : isPySpace c = true
    · rw [if_pos hp]
      exact ih
    · rw [if_neg hp]
      intro d hd
      simp only [List.head?_cons, Option.some.injEq] at hd
      subst hd
      simpa using hp

theorem dropWhile_getLast (p : Char → Bool) (l : List Char)
    (h : l.dropWhile p ≠ []) : (l.dropWhile p).getLast? = l.getLast? := by
  induction l with
  | nil => simp [List.dropWhile] at h
  | cons c rest ih =>
    rw [List.dropWhile_cons] at h ⊢
    by_cases hp : p c = true
    · rw [if_pos hp] at h ⊢
      have hrest : rest ≠ [] := by
        intro hr
        rw [hr] at h
        simp [List.dropWhile] at h
      rw [ih h]
      cases rest with
      | nil => exact absurd rfl hrest
      | cons d rest2 => rw [List.getLast?_cons_cons]
    · rw [if_neg hp]

/-- `pyStrip`'s character list. -/
def pyStripList (l : List Char) : List Char :=
  ((l.dropWhile isPySpace).reverse.dropWhile isPySpace).reverse

theorem pyStrip_data (s : String) : (pyStrip s).data = pyStripList s.data := rfl

theorem pyStripList_props (l : List Char) (hall : AllSp l) (hadj : NoAdjSp l) :
    AllSp (pyStripList l) ∧ NoAdjSp (pyStripList l) ∧
    HeadNonSp (pyStripList l) ∧ LastNonSp (pyStripList l) := by
  unfold pyStripList
  set d1 := l.dropWhile isPySpace with hd1
  set d2 := d1.reverse.dropWhile isPySpace with hd2
  have hall2 : AllSp d2.reverse :=
    reverse_allSp _ (dropWhile_allSp _ (reverse_allSp _ (dropWhile_allSp _ hall)))
  have hadj2 : NoAdjSp d2.reverse :=
    reverse_noAdj _ (dropWhile_noAdj _ (reverse_noAdj _ (dropWhile_noAdj _ hadj)))
  refine ⟨hall2, hadj2, ?_, ?_⟩
  · -- head of the result is the last of d2, which is the last of d1.reverse,
    -- i.e. the head of d1, which dropWhile guarantees to be non-space
    intro c hc
    by_cases hne : d2 = []
    · rw [hne] at hc; simp at hc
    · rw [List.head?_reverse] at hc
      rw [dropWhile_getLast isPySpace d1.reverse hne] at hc
      rw [List.getLast?_reverse] at hc
      exact dropWhile_headNonSp l c (by rw [← hd1]; exact hc)
  · intro c hc
    rw [List.getLast?_reverse] at hc
    exact dropWhile_headNonSp d1.reverse c hc

theorem collapseWsAux_fix : ∀ (l : List Char), AllSp l → NoAdjSp l →
    collapseWsAux false l = l ∧ (HeadNonSp l → collapseWsAux true l = l) := by
  intro l
  induction l with
  | nil => intro _ _; exact ⟨rfl, fun _ => rfl⟩
  | cons c rest ih =>
    intro hall hadj
    have hallr : AllSp rest := fun d hd => hall d (by simp [hd])
    have hadjr : NoAdjSp rest := List.Chain'.tail hadj
    by_cases hsp : isPySpace c = true
    · have hc : c = ' ' := hall c (by simp) hsp
      have hheadr : HeadNonSp rest := by
        intro d hd
        cases rest with
        | nil => simp at hd
        | cons d2 rest2 =>
          simp only [List.head?_cons, Option.some.injEq] at hd
          have hchain := (List.chain'_cons.mp hadj).1
          by_cases h2 : isPySpace d2 = true
          · exact absurd ⟨hsp, h2⟩ hchain
          · rw [← hd]
            simpa using h2
      constructor
      · rw [collapseWsAux, if_pos hsp, if_neg Bool.false_ne_true]
        rw [(ih hallr hadjr).2 hheadr, hc]
      · intro hhead
        exact absurd (hhead c (by simp)) (by simp [hsp])
    · have heq : ∀ b, collapseWsAux b (c :: rest) = c :: collapseWsAux false rest := by
        intro b
        rw [collapseWsAux, if_neg hsp]
      refine ⟨?_, fun _ => ?_⟩
      · rw [heq, (ih hallr hadjr).1]
      · rw [heq, (ih hallr hadjr).1]

theorem dropWhile_fix (p : Char → Bool) (l : List Char)
    (h : ∀ c, l.head? = some c → p c = false) : l.dropWhile p = l := by
  cases l with
  | nil => rfl
  | cons c rest =>
    rw [List.dropWhile_cons]
    have := h c (by simp)
    simp [this]

theorem pyStripList_fix (l : List Char) (hh : HeadNonSp l) (hl : LastNonSp l) :
    pyStripList l = l := by
  unfold pyStripList
  rw [dropWhile_fix isPySpace l hh]
  have : l.reverse.dropWhile isPySpace = l.reverse := by
    apply dropWhile_fix
    intro c hc
    rw [List.head?_reverse] at hc
    exact hl c hc
  rw [this, List.reverse_reverse]

theorem collapseNlAux_fix : ∀ (b : Bool) (l : List Char),
    (∀ c ∈ l, isNlCr c = false) → collapseNlAux b l = l := by
  intro b l
  induction l generalizing b with
  | nil => intro _; rfl
  | cons c rest ih =>
    intro h
    have hc := h c (by simp)
    rw [collapseNlAux, if_neg (by simp [hc])]
    rw [ih false (fun d hd => h d (by simp [hd]))]

theorem map_ne_fix (oldC newC : Char) :
    ∀ (l : List Char), (∀ c ∈ l, c ≠ oldC) →
      l.map (fun c => if c = oldC then newC else c) = l := by
  intro l
  induction l with
  | nil => intro _; rfl
  | cons c rest ih =>
    intro h
    rw [List.map_cons, if_neg (h c (by simp)), ih (fun d hd => h d (by simp [hd]))]

theorem replaceChar_fix (oldC newC : Char) (s : String)
    (h : ∀ c ∈ s.data, c ≠ oldC) : replaceChar oldC newC s = s := by
  unfold replaceChar
  rw [map_ne_fix oldC newC s.data h]

/-- Canonical strings are fixed by every normalization step. -/
theorem normalizeText_fix (r : String) (hall : AllSp r.data)
    (hadj : NoAdjSp r.data) (hh : HeadNonSp r.data) (hl : LastNonSp r.data) :
    normalizeText r = r := by
  by_cases h0 : r = ""
  · rw [h0]; rfl
  · unfold normalizeText
    rw [if_neg h0]
    show pyStrip (collapseWs (replaceChar (Char.ofNat 0x2008) ' '
      (replaceChar (Char.ofNat 0x2009) ' ' (replaceChar (Char.ofNat 0xa0) ' '
        (collapseNl (pyStrip (collapseWs r))))))) = r
    have hcw : collapseWs r = r := by
      unfold collapseWs
      rw [(collapseWsAux_fix r.data hall hadj).1]
    rw [hcw]
    have hst : pyStrip r = r := by
      unfold pyStrip
      have : ((r.data.dropWhile isPySpace).reverse.dropWhile isPySpace).reverse
          = r.data := pyStripList_fix r.data hh hl
      rw [this]
    rw [hst]
    have hnl : collapseNl r = r := by
      unfold collapseNl
      rw [collapseNlAux_fix false r.data ?_]
      intro c hc
      by_cases hn : isNlCr c = true
      · have hsp : isPySpace c = true := by
          unfold isNlCr at hn
          unfold isPySpace
          rcases Bool.or_eq_true_iff.mp hn with h | h <;> simp [h]
        have := hall c hc hsp
        subst this
        simp [isNlCr] at hn
      · simpa using hn
    rw [hnl]
    have hrep : ∀ (ch : Char), isPySpace ch = true → ch ≠ ' ' →
        replaceChar ch ' ' r = r := by
      intro ch hsp hne
      apply replaceChar_fix
      intro c hc hceq
      subst hceq
      exact hne (hall c hc hsp)
    rw [hrep (Char.ofNat 0xa0) (by decide) (by decide),
      hrep (Char.ofNat 0x2009) (by decide) (by decide),
      hrep (Char.ofNat 0x2008) (by decide) (by decide)]
    rw [hcw, hst]

theorem stripCollapse_canon (s : String) :
    AllSp (pyStrip (collapseWs s)).data ∧ NoAdjSp (pyStrip (collapseWs s)).data ∧
    HeadNonSp (pyStrip (collapseWs s)).data ∧
    LastNonSp (pyStrip (collapseWs s)).data := by
  have h1 : (pyStrip (collapseWs s)).data =
      pyStripList (collapseWsAux false s.data) := rfl
  rw [h1]
  exact pyStripList_props (collapseWsAux false s.data)
    (collapseWsAux_allSp false s.data) (collapseWsAux_shape s.data).1

theorem normalizeText_canon (t : String) :
    AllSp (normalizeText t).data ∧ NoAdjSp (normalizeText t).data ∧
    HeadNonSp (normalizeText t).data ∧ LastNonSp (normalizeText t).data := by
  by_cases h0 : t = ""
  · rw [h0]
    refine ⟨?_, ?_, ?_, ?_⟩
    · intro c hc; simp [normalizeText] at hc
    · exact List.chain'_nil
    · intro c hc; simp [normalizeText] at hc
    · intro c hc; simp [normalizeText] at hc
  · have heq : normalizeText t = pyStrip (collapseWs
        (replaceChar (Char.ofNat 0x2008) ' ' (replaceChar (Char.ofNat 0x2009) ' '
          (replaceChar (Char.ofNat 0xa0) ' '
            (collapseNl (pyStrip (collapseWs t))))))) := by
      unfold normalizeText
      rw [if_neg h0]
    rw [heq]
    exact stripCollapse_canon _

/-- **C9** (confirmed).  Idempotence of normalization:
`_normalize_text(_normalize_text(x)) == _normalize_text(x)` for every
string `x`. -/
theorem c9_normalize_idempotent (x : String) :
    normalizeText (normalizeText x) = normalizeText x := by
  have h := normalizeText_canon x
  exact normalizeText_fix _ h.1 h.2.1 h.2.2.1 h.2.2.2

/-!
## Claim C4: fingerprint format
-/

/-- **C4** (counterexample).  The claim states the fingerprint is always
`firstK ++ "|" ++ lastK ++ "|" ++ length ++ "|" ++ wordCount`; but the source
sets the second component to `''` whenever the word count is at most
`fingerprint_last_words` (5).  On `"a b"` the code yields `"a b||3|2"`,
while the claimed format yields `"a b|a b|3|2"`. -/
theorem c4_counterexample :
    getTextFingerprint "a b" = "a b||3|2" ∧
    specFingerprint "a b" = "a b|a b|3|2" ∧
    getTextFingerprint "a b" ≠ specFingerprint "a b" := by
  refine ⟨rfl, rfl, ?_⟩
  decide

/-- **C4** (amended).  For every string, the fingerprint is the first-K
words, `"|"`, the last-K words *when the word count exceeds K and `''`
otherwise*, `"|"`, the character length of the normalized text, `"|"`, and
the word count (K = 5); empty normalized text yields `""`, and the empty
fingerprint is never indexed (its candidate bucket is empty). -/
theorem c4_amended (text : String) (fps2 : List String) :
    (normalizeText text = "" → getTextFingerprint text = "") ∧
    (pySplit (normalizeText text) ≠ [] →
      getTextFingerprint text =
        spaceJoin ((pySplit (normalizeText text)).take fingerprintFirstWords)
        ++ "|" ++
        (if fingerprintLastWords < (pySplit (normalizeText text)).length then
          spaceJoin ((pySplit (normalizeText text)).drop
            ((pySplit (normalizeText text)).length - fingerprintLastWords))
        else "") ++ "|" ++ toString (normalizeText text).length ++ "|" ++
        toString (pySplit (normalizeText text)).length) ∧
    fingerprintBucket fps2 "" = [] := by
  refine ⟨?_, ?_, ?_⟩
  · intro h
    unfold getTextFingerprint
    rw [h]
    rfl
  · intro h
    unfold getTextFingerprint
    rw [if_neg (by simpa [List.length_eq_zero] using h)]
  · unfold fingerprintBucket
    rw [if_pos rfl]

/-- **C4** (witness for the amended theorem). -/
theorem c4_amended_witness :
    pySplit (normalizeText "one two three four five six") ≠ [] ∧
    getTextFingerprint "one two three four five six" =
      spaceJoin ((pySplit (normalizeText "one two three four five six")).take
        fingerprintFirstWords) ++ "|" ++
      (if fingerprintLastWords <
          (pySplit (normalizeText "one two three four five six")).length then
        spaceJoin ((pySplit (normalizeText "one two three four five six")).drop
          ((pySplit (normalizeText "one two three four five six")).length -
            fingerprintLastWords))
      else "") ++ "|" ++
      toString (normalizeText "one two three four five six").length ++ "|" ++
      toString (pySplit (normalizeText "one two three four five six")).length :=
  ⟨by decide, (c4_amended "one two three four five six" []).2.1 (by decide)⟩

/-!
## Claim C5: similarity short-circuit, reflexivity, and range
-/

theorem ratioQ_nonneg {α : Type} [DecidableEq α] (a b : List α) :
    0 ≤ ratioQ a b := by
  unfold ratioQ
  split
  · norm_num
  · rename_i h
    apply div_nonneg
    · positivity
    · have : 0 < a.length + b.length := Nat.pos_of_ne_zero h
      have : (0 : ℚ) < (a.length : ℚ) + (b.length : ℚ) := by
        exact_mod_cast this
      linarith

theorem ratioQ_le_one {α : Type} [DecidableEq α] (a b : List α) :
    ratioQ a b ≤ 1 := by
  unfold ratioQ
  split
  · norm_num
  · rename_i h
    have hspec := getMatchingBlocks_spec a b
    have hsum := sumSizes_le a.length b.length (getMatchingBlocks a b) 0 0
      (fun blk hblk => by
        have := hspec.1 blk hblk
        exact ⟨this.1, this.2, Nat.zero_le _, Nat.zero_le _⟩)
      hspec.2.1
    have hM1 : sumMatchSizes (getMatchingBlocks a b) ≤ a.length := by
      have := hsum.1
      omega
    have hM2 : sumMatchSizes (getMatchingBlocks a b) ≤ b.length := by
      have := hsum.2
      omega
    rw [div_le_one]
    · have : (sumMatchSizes (getMatchingBlocks a b) : ℚ) ≤ a.length := by
        exact_mod_cast hM1
      have : (sumMatchSizes (getMatchingBlocks a b) : ℚ) ≤ b.length := by
        exact_mod_cast hM2
      linarith [show (sumMatchSizes (getMatchingBlocks a b) : ℚ) ≤ a.length
        from by exact_mod_cast hM1]
    · have : 0 < a.length + b.length := Nat.pos_of_ne_zero h
      have h2 : (0 : ℚ) < (a.length : ℚ) + (b.length : ℚ) := by exact_mod_cast this
      exact h2

/-- **C5** (confirmed).  `_calculate_similarity` returns exactly `1.0`
whenever the normalized texts agree; hence it is reflexive on non-empty
strings; and its value always lies in `[0, 1]`. -/
theorem c5_similarity :
    (∀ a b : String, normalizeText a = normalizeText b →
      calculateSimilarity a b = 1) ∧
    (∀ x : String, x ≠ "" → calculateSimilarity x x = 1) ∧
    (∀ a b : String,
      0 ≤ calculateSimilarity a b ∧ calculateSimilarity a b ≤ 1) := by
  refine ⟨?_, ?_, ?_⟩
  · intro a b h
    unfold calculateSimilarity
    rw [if_pos h]
  · intro x _
    unfold calculateSimilarity
    rw [if_pos rfl]
  · intro a b
    have hcs : calculateSimilarity a b =
        if normalizeText a = normalizeText b then 1
        else ratioQ (normalizeText a).data (normalizeText b).data := rfl
    rw [hcs]
    split
    · norm_num
    · exact ⟨ratioQ_nonneg _ _, ratioQ_le_one _ _⟩

/-- **C5** (witness). -/
theorem c5_similarity_witness : calculateSimilarity "abc" "abc" = 1 :=
  c5_similarity.2.1 "abc" (by decide)

/-!
## Claim C6: change-type heuristic order
-/

/-- The set of lowercased normalized words of a text, as used by
`_determine_change_type`. -/
def changeWords (t : String) : Finset String :=
  (pySplit (pyToLower (normalizeText t))).toFinset

theorem determineChangeType_def (t1 t2 : String) :
    determineChangeType t1 t2 =
      (if normalizeText t1 = normalizeText t2 then "Изменение форматирования"
       else if changeWords t1 = changeWords t2 then "Изменение порядка слов"
       else if changeWords t2 \ changeWords t1 ≠ ∅ ∧
           changeWords t1 \ changeWords t2 = ∅ then "Добавление текста"
       else if changeWords t1 \ changeWords t2 ≠ ∅ ∧
           changeWords t2 \ changeWords t1 = ∅ then "Удаление текста"
       else if (changeWords t1 \ changeWords t2).card * 2 <
           (changeWords t2 \ changeWords t1).card then "Значительное добавление"
       else if (changeWords t2 \ changeWords t1).card * 2 <
           (changeWords t1 \ changeWords t2).card then "Значительное удаление"
       else "Изменение содержания") := rfl

/-- **C6** (confirmed).  `_determine_change_type` returns the
formatting-change type iff the normalized texts are equal; otherwise the
word-order type iff the lowercased word sets are equal; otherwise, with
`added`/`removed` the word-set differences, the remaining five labels are
characterized by the stated conditions evaluated in exactly the source's
order. -/
theorem c6_change_type (t1 t2 : String) :
    (determineChangeType t1 t2 = "Изменение форматирования" ↔
      normalizeText t1 = normalizeText t2) ∧
    (normalizeText t1 ≠ normalizeText t2 →
      (determineChangeType t1 t2 = "Изменение порядка слов" ↔
        changeWords t1 = changeWords t2)) ∧
    (normalizeText t1 ≠ normalizeText t2 →
      changeWords t1 ≠ changeWords t2 →
      ((determineChangeType t1 t2 = "Добавление текста" ↔
        (changeWords t2 \ changeWords t1 ≠ ∅ ∧
          changeWords t1 \ changeWords t2 = ∅)) ∧
      (determineChangeType t1 t2 = "Удаление текста" ↔
        (¬(changeWords t2 \ changeWords t1 ≠ ∅ ∧
            changeWords t1 \ changeWords t2 = ∅) ∧
          (changeWords t1 \ changeWords t2 ≠ ∅ ∧
            changeWords t2 \ changeWords t1 = ∅))) ∧
      (determineChangeType t1 t2 = "Значительное добавление" ↔
        (¬(changeWords t2 \ changeWords t1 ≠ ∅ ∧
            changeWords t1 \ changeWords t2 = ∅) ∧
          ¬(changeWords t1 \ changeWords t2 ≠ ∅ ∧
            changeWords t2 \ changeWords t1 = ∅) ∧
          (changeWords t1 \ changeWords t2).card * 2 <
            (changeWords t2 \ changeWords t1).card)) ∧
      (determineChangeType t1 t2 = "Значительное удаление" ↔
        (¬(changeWords t2 \ changeWords t1 ≠ ∅ ∧
            changeWords t1 \ changeWords t2 = ∅) ∧
          ¬(changeWords t1 \ changeWords t2 ≠ ∅ ∧
            changeWords t2 \ changeWords t1 = ∅) ∧
          ¬((changeWords t1 \ changeWords t2).card * 2 <
            (changeWords t2 \ changeWords t1).card) ∧
          (changeWords t2 \ changeWords t1).card * 2 <
            (changeWords t1 \ changeWords t2).card)) ∧
      (determineChangeType t1 t2 = "Изменение содержания" ↔
        (¬(changeWords t2 \ changeWords t1 ≠ ∅ ∧
            changeWords t1 \ changeWords t2 = ∅) ∧
          ¬(changeWords t1 \ changeWords t2 ≠ ∅ ∧
            changeWords t2 \ changeWords t1 = ∅) ∧
          ¬((changeWords t1 \ changeWords t2).card * 2 <
            (changeWords t2 \ changeWords t1).card) ∧
          ¬((changeWords t2 \ changeWords t1).card * 2 <
            (changeWords t1 \ changeWords t2).card))))) := by
  refine ⟨?_, ?_, ?_⟩
  · rw [determineChangeType_def]
    by_cases h1 : normalizeText t1 = normalizeText t2
    · simp [h1]
    · rw [if_neg h1]
      constructor
      · intro hx
        exfalso
        split_ifs at hx <;> exact absurd hx (by decide)
      · intro hx
        exact absurd hx h1
  · intro h1
    rw [determineChangeType_def, if_neg h1]
    by_cases h2 : changeWords t1 = changeWords t2
    · simp [h2]
    · rw [if_neg h2]
      constructor
      · intro hx
        exfalso
        split_ifs at hx <;> exact absurd hx (by decide)
      · intro hx
        exact absurd hx h2
  · intro h1 h2
    rw [determineChangeType_def, if_neg h1, if_neg h2]
    refine ⟨?_, ?_, ?_, ?_, ?_⟩
    · by_cases h3 : changeWords t2 \ changeWords t1 ≠ ∅ ∧
          changeWords t1 \ changeWords t2 = ∅
      · simp [h3]
      · rw [if_neg h3]
        constructor
        · intro hx
          exfalso
          split_ifs at hx <;> exact absurd hx (by decide)
        · intro hc
          exact absurd hc h3
    · by_cases h3 : changeWords t2 \ changeWords t1 ≠ ∅ ∧
          changeWords t1 \ changeWords t2 = ∅
      · rw [if_pos h3]
        constructor
        · intro hx
          exact absurd hx (by decide)
        · rintro ⟨hn3, -⟩
          exact absurd h3 hn3
      · rw [if_neg h3]
        by_cases h4 : changeWords t1 \ changeWords t2 ≠ ∅ ∧
            changeWords t2 \ changeWords t1 = ∅
        · simp [h3, h4]
        · rw [if_neg h4]
          constructor
          · intro hx
            exfalso
            split_ifs at hx <;> exact absurd hx (by decide)
          · rintro ⟨-, hc4⟩
            exact absurd hc4 h4
    · by_cases h3 : changeWords t2 \ changeWords t1 ≠ ∅ ∧
          changeWords t1 \ changeWords t2 = ∅
      · rw [if_pos h3]
        constructor
        · intro hx
          exact absurd hx (by decide)
        · rintro ⟨hn3, -, -⟩
          exact absurd h3 hn3
      · rw [if_neg h3]
        by_cases h4 : changeWords t1 \ changeWords t2 ≠ ∅ ∧
            changeWords t2 \ changeWords t1 = ∅
        · rw [if_pos h4]
          constructor
          · intro hx
            exact absurd hx (by decide)
          · rintro ⟨-, hn4, -⟩
            exact absurd h4 hn4
        · rw [if_neg h4]
          by_cases h5 : (changeWords t1 \ changeWords t2).card * 2 <
              (changeWords t2 \ changeWords t1).card
          · rw [if_pos h5]
            exact ⟨fun _ => ⟨h3, h4, h5⟩, fun _ => rfl⟩
          · rw [if_neg h5]
            constructor
            · intro hx
              exfalso
              split_ifs at hx <;> exact absurd hx (by decide)
            · rintro ⟨-, -, hc5⟩
              exact absurd hc5 h5
    · by_cases h3 : changeWords t2 \ changeWords t1 ≠ ∅ ∧
          changeWords t1 \ changeWords t2 = ∅
      · rw [if_pos h3]
        constructor
        · intro hx
          exact absurd hx (by decide)
        · rintro ⟨hn3, -, -, -⟩
          exact absurd h3 hn3
      · rw [if_neg h3]
        by_cases h4 : changeWords t1 \ changeWords t2 ≠ ∅ ∧
            changeWords t2 \ changeWords t1 = ∅
        · rw [if_pos h4]
          constructor
          · intro hx
            exact absurd hx (by decide)
          · rintro ⟨-, hn4, -, -⟩
            exact absurd h4 hn4
        · rw [if_neg h4]
          by_cases h5 : (changeWords t1 \ changeWords t2).card * 2 <
              (changeWords t2 \ changeWords t1).card
          · rw [if_pos h5]
            constructor
            · intro hx
              exact absurd hx (by decide)
            · rintro ⟨-, -, hn5, -⟩
              exact absurd h5 hn5
          · rw [if_neg h5]
            by_cases h6 : (changeWords t2 \ changeWords t1).card * 2 <
                (changeWords t1 \ changeWords t2).card
            · rw [if_pos h6]
              exact ⟨fun _ => ⟨h3, h4, h5, h6⟩, fun _ => rfl⟩
            · rw [if_neg h6]
              constructor
              · intro hx
                exact absurd hx (by decide)
              · rintro ⟨-, -, -, hc6⟩
                exact absurd hc6 h6
    · by_cases h3 : changeWords t2 \ changeWords t1 ≠ ∅ ∧
          changeWords t1 \ changeWords t2 = ∅
      · rw [if_pos h3]
        constructor
        · intro hx
          exact absurd hx (by decide)
        · rintro ⟨hn3, -, -, -⟩
          exact absurd h3 hn3
      · rw [if_neg h3]
        by_cases h4 : changeWords t1 \ changeWords t2 ≠ ∅ ∧
            changeWords t2 \ changeWords t1 = ∅
        · rw [if_pos h4]
          constructor
          · intro hx
            exact absurd hx (by decide)
          · rintro ⟨-, hn4, -, -⟩
            exact absurd h4 hn4
        · rw [if_neg h4]
          by_cases h5 : (changeWords t1 \ changeWords t2).card * 2 <
              (changeWords t2 \ changeWords t1).card
          · rw [if_pos h5]
            constructor
            · intro hx
              exact absurd hx (by decide)
            · rintro ⟨-, -, hn5, -⟩
              exact absurd h5 hn5
          · rw [if_neg h5]
            by_cases h6 : (changeWords t2 \ changeWords t1).card * 2 <
                (changeWords t1 \ changeWords t2).card
            · rw [if_pos h6]
              constructor
              · intro hx
                exact absurd hx (by decide)
              · rintro ⟨-, -, -, hn6⟩
                exact absurd h6 hn6
            · rw [if_neg h6]
              exact ⟨fun _ => ⟨h3, h4, h5, h6⟩, fun _ => rfl⟩

/-- **C6** (witness). -/
theorem c6_change_type_witness :
    normalizeText "a b" ≠ normalizeText "a b c" ∧
    changeWords "a b" ≠ changeWords "a b c" ∧
    (determineChangeType "a b" "a b c" = "Добавление текста" ↔
      (changeWords "a b c" \ changeWords "a b" ≠ ∅ ∧
        changeWords "a b" \ changeWords "a b c" = ∅)) :=
  ⟨by decide, by decide,
    ((c6_change_type "a b" "a b c").2.2 (by decide) (by decide)).1⟩

/-!
## Claim C7: bounded differences list
-/

theorem diffLong_le_ten (text1 text2 norm1 norm2 : String) :
    (diffLong text1 text2 norm1 norm2).length ≤ 10 := by
  simp only [diffLong]
  rw [List.length_take]
  omega

/-- **C7** (confirmed).  `_get_differences` always returns at most 10
entries; a formatting-only change (equal normalized, different raw) yields
exactly the single formatting entry containing `text1`; two short differing
normalized texts yield exactly the two full-text entries. -/
theorem c7_differences (text1 text2 : String) :
    (getDifferences text1 text2).length ≤ 10 ∧
    (normalizeText text1 = normalizeText text2 → text1 ≠ text2 →
      getDifferences text1 text2 = [formattingOnlyMsg text1]) ∧
    ((normalizeText text1).length < 100 → (normalizeText text2).length < 100 →
      normalizeText text1 ≠ normalizeText text2 →
      getDifferences text1 text2 = [oldTextMsg text1, newTextMsg text2]) := by
  refine ⟨?_, ?_, ?_⟩
  · simp only [getDifferences]
    split_ifs <;> simp [diffLong_le_ten]
  · intro h hne
    simp only [getDifferences]
    rw [if_pos ⟨h, hne⟩]
  · intro h1 h2 hne
    simp only [getDifferences]
    rw [if_neg (fun hc => hne hc.1), if_pos ⟨h1, h2⟩, if_pos hne]

/-- **C7** (witness). -/
theorem c7_differences_witness :
    ((normalizeText "ab  cd").length < 100 ∧ (normalizeText "ab ce").length < 100 ∧
      normalizeText "ab  cd" ≠ normalizeText "ab ce") ∧
    getDifferences "ab  cd" "ab ce" = [oldTextMsg "ab  cd", newTextMsg "ab ce"] :=
  ⟨⟨by decide, by decide, by decide⟩,
    (c7_differences "ab  cd" "ab ce").2.2 (by decide) (by decide) (by decide)⟩

/-!
## Claim C8: table cell diff
-/

/-- Cell `(r, c)` (0-based) of a grid padded with `""` for missing trailing
rows and cells. -/
def paddedCell (rows : List (List String)) (r c : Nat) : String :=
  (rows.getD r []).getD c ""

theorem findTableCellChanges_mem (rows1 rows2 : List (List String))
    (ch : CellChange) :
    ch ∈ findTableCellChanges rows1 rows2 ↔
      (1 ≤ ch.row ∧ 1 ≤ ch.col ∧
        ch.oldValue = paddedCell rows1 (ch.row - 1) (ch.col - 1) ∧
        ch.newValue = paddedCell rows2 (ch.row - 1) (ch.col - 1) ∧
        ch.oldValue ≠ ch.newValue) := by
  unfold findTableCellChanges
  rw [List.mem_flatMap]
  constructor
  · rintro ⟨rowIdx, hrow, hinner⟩
    rw [List.mem_filterMap] at hinner
    rcases hinner with ⟨colIdx, hcol, hsome⟩
    split_ifs at hsome with hne
    have hch := Option.some.inj hsome
    rw [← hch]
    exact ⟨Nat.succ_le_succ (Nat.zero_le _), Nat.succ_le_succ (Nat.zero_le _),
      rfl, rfl, hne⟩
  · rintro ⟨h1, h2, hold, hnew, hne⟩
    unfold paddedCell at hold hnew
    refine ⟨ch.row - 1, ?_, ?_⟩
    · rw [List.mem_range]
      by_contra hcon
      push_neg at hcon
      have e1 : rows1.getD (ch.row - 1) [] = [] :=
        List.getD_eq_default _ _ (by omega)
      have e2 : rows2.getD (ch.row - 1) [] = [] :=
        List.getD_eq_default _ _ (by omega)
      rw [e1] at hold
      rw [e2] at hnew
      rw [hold, hnew] at hne
      simp at hne
    · rw [List.mem_filterMap]
      refine ⟨ch.col - 1, ?_, ?_⟩
      · rw [List.mem_range]
        by_contra hcon
        push_neg at hcon
        have e1 : (rows1.getD (ch.row - 1) []).getD (ch.col - 1) "" = "" :=
          List.getD_eq_default _ _ (by omega)
        have e2 : (rows2.getD (ch.row - 1) []).getD (ch.col - 1) "" = "" :=
          List.getD_eq_default _ _ (by omega)
        rw [e1] at hold
        rw [e2] at hnew
        rw [hold, hnew] at hne
        simp at hne
      · rw [if_pos (by rw [← hold, ← hnew]; exact hne)]
        cases ch with
        | mk r c o n =>
          simp only at h1 h2 hold hnew
          have hr : r - 1 + 1 = r := by omega
          have hc : c - 1 + 1 = c := by omega
          rw [hr, hc, ← hold, ← hnew]

theorem findTableCellChanges_once (rows1 rows2 : List (List String)) :
    (findTableCellChanges rows1 rows2).Pairwise
      (fun a b => a.row ≠ b.row ∨ a.col ≠ b.col) := by
  unfold findTableCellChanges
  rw [List.pairwise_flatMap]
  constructor
  · intro i _
    apply List.Pairwise.filterMap
      (S := fun a b : CellChange => a.row ≠ b.row ∨ a.col ≠ b.col)
      _ ?_ (List.pairwise_lt_range _)
    intro c1 c2 hlt b hb b' hb'
    simp only [Option.mem_def] at hb hb'
    split_ifs at hb hb'
    have hb2 := Option.some.inj hb
    have hb2' := Option.some.inj hb'
    rw [← hb2, ← hb2']
    right
    simp only
    omega
  · refine List.Pairwise.imp (fun {i j} hij => ?_) (List.pairwise_lt_range _)
    intro x hx y hy
    rw [List.mem_filterMap] at hx hy
    rcases hx with ⟨c1, _, hx⟩
    rcases hy with ⟨c2, _, hy⟩
    split_ifs at hx hy
    have hx2 := Option.some.inj hx
    have hy2 := Option.some.inj hy
    rw [← hx2, ← hy2]
    left
    simp only
    omega

/-- **C8** (confirmed).  `_find_table_cell_changes` returns one
`{row, col, old_value, new_value}` entry (1-based) for exactly the positions
at which the padded grids differ, each position at most once; and the claim's
concrete scenario — tables identical except cell (row 2, col 1) changed from
`'1000'` to `'1500'` — yields that single entry. -/
theorem c8_table_cell_diff (rows1 rows2 : List (List String)) :
    (∀ ch : CellChange, ch ∈ findTableCellChanges rows1 rows2 ↔
      (1 ≤ ch.row ∧ 1 ≤ ch.col ∧
        ch.oldValue = paddedCell rows1 (ch.row - 1) (ch.col - 1) ∧
        ch.newValue = paddedCell rows2 (ch.row - 1) (ch.col - 1) ∧
        ch.oldValue ≠ ch.newValue)) ∧
    (findTableCellChanges rows1 rows2).Pairwise
      (fun a b => a.row ≠ b.row ∨ a.col ≠ b.col) ∧
    findTableCellChanges [["Товар", "Цена"], ["1000", "шт"]]
        [["Товар", "Цена"], ["1500", "шт"]] =
      [⟨2, 1, "1000", "1500"⟩] :=
  ⟨findTableCellChanges_mem rows1 rows2, findTableCellChanges_once rows1 rows2,
    by decide⟩

/-!
## Claim C10: safe fallback when no candidate remains
-/

theorem fbm_fold_invariant (text : String) (excluded : List Nat) :
    ∀ (l : List String) (i0 : Nat) (st : Int × ℚ),
      (st = ((-1 : Int), (0 : ℚ)) ∨
        ∃ j : Nat, st.1 = (j : Int) ∧ j < i0 ∧ j ∉ excluded ∧ 0 < st.2) →
      0 ≤ st.2 →
      (((List.enumFrom i0 l).foldl (fbmStep text excluded) st = (-1, 0) ∨
        ∃ j : Nat,
          ((List.enumFrom i0 l).foldl (fbmStep text excluded) st).1 = (j : Int) ∧
          j < i0 + l.length ∧ j ∉ excluded ∧
          0 < ((List.enumFrom i0 l).foldl (fbmStep text excluded) st).2) ∧
      0 ≤ ((List.enumFrom i0 l).foldl (fbmStep text excluded) st).2) := by
  intro l
  induction l with
  | nil =>
    intro i0 st hst h0
    simp only [List.enumFrom, List.foldl_nil]
    refine ⟨?_, h0⟩
    rcases hst with h | ⟨j, hj⟩
    · exact Or.inl h
    · exact Or.inr ⟨j, hj.1, by omega, hj.2.2.1, hj.2.2.2⟩
  | cons x rest ih =>
    intro i0 st hst h0
    simp only [List.enumFrom, List.foldl_cons]
    have hstep : (fbmStep text excluded st (i0, x) = st) ∨
        (fbmStep text excluded st (i0, x) =
          ((i0 : Int), ratioQ text.data x.data) ∧
          st.2 < ratioQ text.data x.data ∧ i0 ∉ excluded) := by
      unfold fbmStep
      by_cases h1 : i0 ∈ excluded
      · rw [if_pos h1]
        exact Or.inl rfl
      · rw [if_neg h1]
        by_cases h2 : st.2 < ratioQ text.data x.data
        · rw [if_pos h2]
          exact Or.inr ⟨rfl, h2, h1⟩
        · rw [if_neg h2]
          exact Or.inl rfl
    rcases hstep with heq | ⟨heq, hgt, hnex⟩
    · rw [heq]
      have := ih (i0 + 1) st
        (by
          rcases hst with h | ⟨j, hj⟩
          · exact Or.inl h
          · exact Or.inr ⟨j, hj.1, by omega, hj.2.2.1, hj.2.2.2⟩) h0
      refine ⟨?_, this.2⟩
      rcases this.1 with h | ⟨j, hj⟩
      · exact Or.inl h
      · refine Or.inr ⟨j, hj.1, ?_, hj.2.2.1, hj.2.2.2⟩
        have := hj.2.1
        simp only [List.length_cons]
        omega
    · rw [heq]
      have hpos : (0 : ℚ) < ratioQ text.data x.data := lt_of_le_of_lt h0 hgt
      have := ih (i0 + 1) ((i0 : Int), ratioQ text.data x.data)
        (Or.inr ⟨i0, rfl, by omega, hnex, hpos⟩) (le_of_lt hpos)
      refine ⟨?_, this.2⟩
      rcases this.1 with h | ⟨j, hj⟩
      · exact Or.inl h
      · refine Or.inr ⟨j, hj.1, ?_, hj.2.2.1, hj.2.2.2⟩
        have := hj.2.1
        simp only [List.length_cons]
        omega

theorem findBestMatchByContent_spec (text : String) (texts : List String)
    (excluded : List Nat) :
    findBestMatchByContent text texts excluded = (-1, 0) ∨
    ∃ j : Nat, (findBestMatchByContent text texts excluded).1 = (j : Int) ∧
      j < texts.length ∧ j ∉ excluded ∧
      0 < (findBestMatchByContent text texts excluded).2 := by
  have h := fbm_fold_invariant text excluded texts 0 ((-1 : Int), (0 : ℚ))
    (Or.inl rfl) le_rfl
  have henum : texts.enum = List.enumFrom 0 texts := rfl
  unfold findBestMatchByContent
  rw [henum]
  rcases h.1 with h1 | ⟨j, hj⟩
  · exact Or.inl h1
  · exact Or.inr ⟨j, hj.1, by simpa using hj.2.1, hj.2.2.1, hj.2.2.2⟩

/-- The record the fallback branch produces when the best similarity misses
`similarity_threshold_low`. -/
def deletedRecord (idx1 : Nat) (para1 : String) : ParaRecord :=
  { index1 := some ((idx1 : Int) + 1), text1 := some para1,
    index2 := none, text2 := none,
    status := "deleted", similarity := 0,
    differences := [], changeType := "Удален" }

/-- **C10** (confirmed).  If every index of `normalized_texts` is excluded
(in particular if the list is empty), `_find_best_match_by_content` returns
`(-1, 0.0)`; and since `similarity_threshold_low = 0.6 > 0`, whenever the
fallback branch of `_compare_documents` fires, the best index is a real
index `j < len(paragraphs2)` (never `-1`), while below the threshold the
source paragraph is classified `deleted`. -/
theorem c10_safe_fallback :
    (∀ (text : String) (texts : List String) (excluded : List Nat),
      (∀ i, i < texts.length → i ∈ excluded) →
      findBestMatchByContent text texts excluded = (-1, 0)) ∧
    (∀ (text : String) (texts : List String) (excluded : List Nat),
      simThresholdLow ≤ (findBestMatchByContent text texts excluded).2 →
      ∃ j : Nat, (findBestMatchByContent text texts excluded).1 = (j : Int) ∧
        j < texts.length ∧ j ∉ excluded) ∧
    (∀ (paragraphs1 paragraphs2 normalized1 normalized2 : List String)
      (matchMap : List (Nat × Nat)) (recs : List ParaRecord) (m2 : List Nat)
      (idx1 : Nat),
      dictFind matchMap idx1 = none →
      (findBestMatchByContent (normalized1.getD idx1 "") normalized2 m2).2 <
        simThresholdLow →
      mainStep paragraphs1 paragraphs2 normalized1 normalized2 matchMap
        (recs, m2) idx1 =
        (recs ++ [deletedRecord idx1 (paragraphs1.getD idx1 "")], m2)) := by
  refine ⟨?_, ?_, ?_⟩
  · intro text texts excluded hall
    rcases findBestMatchByContent_spec text texts excluded with h | ⟨j, hj⟩
    · exact h
    · exact absurd (hall j hj.2.1) hj.2.2.1
  · intro text texts excluded hle
    rcases findBestMatchByContent_spec text texts excluded with h | ⟨j, hj⟩
    · exfalso
      rw [h] at hle
      norm_num [simThresholdLow] at hle
    · exact ⟨j, hj.1, hj.2.1, hj.2.2.1⟩
  · intro p1 p2 n1 n2 mm recs m2 idx1 hnone hlt
    unfold mainStep
    rw [hnone]
    simp only
    rw [if_neg (not_le.mpr hlt)]
    rfl

theorem ratioQ_abc :
    ratioQ (['a', 'b', 'c'] : List Char) (['a', 'b', 'c'] : List Char) = 1 := by
  have hM : sumMatchSizes
      (getMatchingBlocks (['a', 'b', 'c'] : List Char) ['a', 'b', 'c']) = 3 := by
    decide
  have hlen : (['a', 'b', 'c'] : List Char).length = 3 := by decide
  unfold ratioQ
  rw [hM, hlen]
  norm_num

theorem fbm_abc : (findBestMatchByContent "abc" ["abc"] []).2 = 1 := by
  show (fbmStep "abc" [] ((-1 : Int), (0 : ℚ)) (0, "abc")).2 = 1
  unfold fbmStep
  simp only [List.not_mem_nil, if_false]
  rw [ratioQ_abc]
  norm_num

theorem fbm_empty_eval (text : String) (excluded : List Nat) :
    (findBestMatchByContent text [] excluded).2 = 0 := rfl

/-- **C10** (witness). -/
theorem c10_safe_fallback_witness :
    ((∀ i, i < (["abc"] : List String).length → i ∈ ([0] : List Nat)) ∧
      findBestMatchByContent "abc" ["abc"] [0] = (-1, 0)) ∧
    (simThresholdLow ≤ (findBestMatchByContent "abc" ["abc"] []).2 ∧
      ∃ j : Nat, (findBestMatchByContent "abc" ["abc"] []).1 = (j : Int) ∧
        j < (["abc"] : List String).length ∧ j ∉ ([] : List Nat)) ∧
    (dictFind ([] : List (Nat × Nat)) 0 = none ∧
      (findBestMatchByContent ((["x"] : List String).getD 0 "")
        ([] : List String) ([] : List Nat)).2 < simThresholdLow ∧
      mainStep ["x"] [] ["x"] [] [] ([], []) 0 =
        ([deletedRecord 0 ((["x"] : List String).getD 0 "")], [])) :=
  ⟨⟨by decide, c10_safe_fallback.1 "abc" ["abc"] [0] (by decide)⟩,
    ⟨by rw [fbm_abc]; norm_num [simThresholdLow],
      c10_safe_fallback.2.1 "abc" ["abc"] []
        (by rw [fbm_abc]; norm_num [simThresholdLow])⟩,
    ⟨rfl,
      by rw [fbm_empty_eval]; norm_num [simThresholdLow],
      c10_safe_fallback.2.2 ["x"] [] ["x"] [] [] [] [] 0 rfl
        (by rw [fbm_empty_eval]; norm_num [simThresholdLow])⟩⟩

/-!
## Claim C2: self-comparison

With the diagonal block `[(0, 0, n), (n, n, 0)]` established for identical
inputs, the positional stage builds the identity match map, the fingerprint
stage finds every index of document 2 already consumed, the main loop takes
the matched branch for every paragraph with similarity `1`, and no `added`
record remains.
-/

/-- The identity match map `{0: 0, …, n-1: n-1}` built by the positional
stage of the self-comparison. -/
def diagMap (n : Nat) : List (Nat × Nat) :=
  (List.range n).map (fun i => (i, i))

theorem diagMap_key_absent (k : Nat) :
    (diagMap k).any (fun p => p.1 == k) = false := by
  rw [Bool.eq_false_iff]
  intro hany
  rcases List.any_eq_true.mp hany with ⟨q, hq, hqk⟩
  rcases List.mem_map.mp hq with ⟨i, hi, rfl⟩
  rw [List.mem_range] at hi
  have hik : i = k := by simpa using hqk
  omega

theorem dictSet_diagMap (k : Nat) :
    dictSet (diagMap k) k k = diagMap (k + 1) := by
  unfold dictSet
  rw [diagMap_key_absent k]
  rw [if_neg Bool.false_ne_true]
  simp [diagMap, List.range_succ]

theorem setAdd_range (k : Nat) :
    setAdd (List.range k) k = List.range (k + 1) := by
  unfold setAdd
  rw [if_neg (by simp)]
  rw [List.range_succ]

theorem find?_diagMap (n i : Nat) :
    (diagMap n).find? (fun p => p.1 == i) =
      if i < n then some (i, i) else none := by
  induction n with
  | zero => simp [diagMap]
  | succ n ih =>
    have hsplit : diagMap (n + 1) = diagMap n ++ [(n, n)] := by
      simp [diagMap, List.range_succ]
    rw [hsplit, List.find?_append, ih]
    by_cases hin : i < n
    · rw [if_pos hin, if_pos (by omega)]
      rfl
    · rw [if_neg hin]
      by_cases hie : i = n
      · subst hie
        rw [if_pos (by omega)]
        rw [List.find?_cons_of_pos _ (by simp)]
        rfl
      · rw [if_neg (by omega)]
        rw [List.find?_cons_of_neg _ (by simp; omega)]
        rfl

theorem dictFind_diagMap (n i : Nat) (h : i < n) :
    dictFind (diagMap n) i = some i := by
  unfold dictFind
  rw [find?_diagMap, if_pos h]
  rfl

theorem posStage_inner_self (n : Nat) :
    ∀ k, k ≤ n →
    (List.range k).foldl
      (fun (st : MatchState) (off : Nat) =>
        if off < n ∧ off < n then
          { matchMap := dictSet st.matchMap off off,
            matched1 := setAdd st.matched1 off,
            matched2 := setAdd st.matched2 off }
        else st)
      ⟨[], [], []⟩ = ⟨diagMap k, List.range k, List.range k⟩ := by
  intro k
  induction k with
  | zero => intro _; rfl
  | succ k ih =>
    intro hk
    rw [List.range_succ, List.foldl_append, ih (by omega)]
    rw [List.foldl_cons, List.foldl_nil]
    dsimp only
    rw [if_pos ⟨by omega, by omega⟩]
    rw [dictSet_diagMap, setAdd_range, List.range_succ]

theorem posStage_self (n : Nat) (hn : 0 < n) :
    posStage n n [(0, 0, n), (n, n, 0)] =
      ⟨diagMap n, List.range n, List.range n⟩ := by
  unfold posStage
  rw [List.foldl_cons, List.foldl_cons, List.foldl_nil]
  dsimp only
  rw [if_pos hn, if_neg (lt_irrefl 0)]
  simp only [Nat.zero_add]
  exact posStage_inner_self n n le_rfl

theorem foldl_fix {β γ : Type} (f : β → γ → β) (st : β) :
    ∀ l : List γ, (∀ c ∈ l, f st c = st) → l.foldl f st = st := by
  intro l
  induction l with
  | nil => intro _; rfl
  | cons c l ih =>
    intro h
    rw [List.foldl_cons, h c (by simp)]
    exact ih (fun y hy => h y (by simp [hy]))

theorem mem_fingerprintBucket_lt (fps2 : List String) (fp : String) (j : Nat)
    (hj : j ∈ fingerprintBucket fps2 fp) : j < fps2.length := by
  unfold fingerprintBucket at hj
  split at hj
  · simp at hj
  · rw [List.mem_filter, List.mem_range] at hj
    exact hj.1

/-- Step 6 of `_compare_documents` is the identity when every index of
document 2 is already consumed: every fingerprint candidate fails the
`idx2 not in matched_indices_2` test. -/
theorem fpStage_id (n1 n2 f1 f2 : List String) (st : MatchState)
    (h : ∀ j, j < f2.length → st.matched2.contains j = true) :
    fpStage n1 n2 f1 f2 st = st := by
  unfold fpStage
  apply foldl_fix
  intro idx1 _
  dsimp only
  by_cases hc : fingerprintBucket f2 (f1.getD idx1 "") ≠ []
  · rw [if_pos hc]
    split
    · rename_i idx2 heq
      exfalso
      have hmem := List.mem_of_find?_eq_some heq
      have hp := List.find?_some heq
      have hcon := h idx2 (mem_fingerprintBucket_lt _ _ _ hmem)
      rw [hcon] at hp
      simp at hp
    · rfl
  · rw [if_neg hc]

theorem calculateSimilarity_self (t : String) :
    calculateSimilarity t t = 1 := by
  simp [calculateSimilarity]

theorem classifyMatched_self (t : String) (i j : Nat) :
    classifyMatched t t i j =
      { index1 := some ((i : Int) + 1), text1 := some t,
        index2 := some ((j : Int) + 1), text2 := some t,
        status := "identical", similarity := 1,
        differences := [], changeType := "Без изменений" } := by
  unfold classifyMatched
  rw [calculateSimilarity_self]
  dsimp only
  rw [if_pos (by norm_num [simThresholdIdentical])]

theorem mainFold_self (p : List String) :
    ∀ k, k ≤ p.length →
    (List.range k).foldl
      (mainStep p p (p.map normalizeText) (p.map normalizeText)
        (diagMap p.length))
      ([], List.range p.length) =
    ((List.range k).map
      (fun i => classifyMatched (p.getD i "") (p.getD i "") i i),
      List.range p.length) := by
  intro k
  induction k with
  | zero => intro _; rfl
  | succ k ih =>
    intro hk
    rw [List.range_succ, List.foldl_append, ih (by omega)]
    rw [List.foldl_cons, List.foldl_nil]
    unfold mainStep
    rw [dictFind_diagMap p.length k (by omega)]
    dsimp only
    rw [List.map_append]
    rfl

theorem list_range_contains (n j : Nat) (h : j < n) :
    (List.range n).contains j = true :=
  List.elem_iff.mpr (List.mem_range.mpr h)

/-- Comparing a nonempty paragraph list with itself: every paragraph is
position-matched to itself and classified by the matched branch. -/
theorem compareDocuments_self (p : List String) (hp : p ≠ []) :
    compareDocuments p p =
      (List.range p.length).map
        (fun i => classifyMatched (p.getD i "") (p.getD i "") i i) := by
  unfold compareDocuments
  dsimp only
  have hmapne : p.map normalizeText ≠ [] := by
    simpa using hp
  have hlen : (p.map normalizeText).length = p.length := by simp
  rw [getMatchingBlocks_self (p.map normalizeText) hmapne, hlen]
  rw [posStage_self p.length (List.length_pos.mpr hp)]
  rw [fpStage_id _ _ _ _ _ (fun j hj => by
    have hjlen : j < p.length := by simpa using hj
    exact list_range_contains p.length j hjlen)]
  dsimp only
  rw [mainFold_self p p.length le_rfl]
  dsimp only
  have hadded : (List.range p.length).filterMap
      (fun idx2 => if idx2 ∉ List.range p.length then
        some { index1 := none, text1 := none,
               index2 := some ((idx2 : Int) + 1),
               text2 := some (p.getD idx2 ""),
               status := "added", similarity := 0,
               differences := [], changeType := "Добавлен" }
      else (none : Option ParaRecord)) = [] := by
    rw [List.filterMap_eq_nil_iff]
    intro a ha
    rw [if_neg (by simp [List.mem_range.mp ha])]
  rw [hadded, List.append_nil]

theorem getStatistics_fields (results : List ParaRecord) :
    (getStatistics results).total = results.length ∧
    (getStatistics results).identical =
      (results.filter (fun r => r.status == "identical")).length ∧
    (getStatistics results).modified =
      (results.filter (fun r => r.status == "modified")).length ∧
    (getStatistics results).added =
      (results.filter (fun r => r.status == "added")).length ∧
    (getStatistics results).deleted =
      (results.filter (fun r => r.status == "deleted")).length ∧
    (getStatistics results).identicalPercent =
      (if 0 < results.length then
        (((results.filter (fun r => r.status == "identical")).length : ℚ) /
          results.length) * 100 else 0) :=
  ⟨rfl, rfl, rfl, rfl, rfl, rfl⟩

/-- **C2** (counterexample).  The empty document is a well-formed input, and
comparing it with itself produces no records, so `get_statistics` reports
`identical_percent = 0`, not `100`: the `total > 0` guard returns `0` for
every percentage field. -/
theorem c2_counterexample :
    compareDocuments [] [] = [] ∧
    (getStatistics (compareDocuments [] [])).identicalPercent = 0 ∧
    (getStatistics (compareDocuments [] [])).identicalPercent ≠ 100 :=
  ⟨rfl, rfl, by decide⟩

/-- **C2** (amended).  For every nonempty paragraph list, comparing the
document with itself yields only `identical` records — every paragraph is
position-matched to itself and scores similarity `1` — and `get_statistics`
reports `100%` identical with zero `modified`, `added` and `deleted`; for
the empty document the identical percentage is `0`, not `100`
(`c2_counterexample`). -/
theorem c2_amended (p : List String) (hp : p ≠ []) :
    (∀ r ∈ compareDocuments p p, r.status = "identical") ∧
    (getStatistics (compareDocuments p p)).total = p.length ∧
    (getStatistics (compareDocuments p p)).identical = p.length ∧
    (getStatistics (compareDocuments p p)).modified = 0 ∧
    (getStatistics (compareDocuments p p)).added = 0 ∧
    (getStatistics (compareDocuments p p)).deleted = 0 ∧
    (getStatistics (compareDocuments p p)).identicalPercent = 100 := by
  have hcd := compareDocuments_self p hp
  have hstat : ∀ r ∈ compareDocuments p p, r.status = "identical" := by
    intro r hr
    rw [hcd] at hr
    rcases List.mem_map.mp hr with ⟨i, _, rfl⟩
    rw [classifyMatched_self]
  have hlen : (compareDocuments p p).length = p.length := by
    rw [hcd]
    simp
  have hfid : (compareDocuments p p).filter
      (fun r => r.status == "identical") = compareDocuments p p := by
    rw [List.filter_eq_self]
    intro r hr
    rw [hstat r hr]
    simp
  have hfother : ∀ s, s ≠ "identical" →
      (compareDocuments p p).filter (fun r => r.status == s) = [] := by
    intro s hs
    rw [List.filter_eq_nil_iff]
    intro r hr
    rw [hstat r hr]
    simp [Ne.symm hs]
  obtain ⟨g1, g2, g3, g4, g5, g6⟩ := getStatistics_fields (compareDocuments p p)
  have hpos : 0 < (compareDocuments p p).length := by
    rw [hlen]
    exact List.length_pos.mpr hp
  refine ⟨hstat, by rw [g1, hlen], by rw [g2, hfid, hlen], ?_, ?_, ?_, ?_⟩
  · rw [g3, hfother "modified" (by decide)]
    rfl
  · rw [g4, hfother "added" (by decide)]
    rfl
  · rw [g5, hfother "deleted" (by decide)]
    rfl
  · rw [g6, if_pos hpos, hfid, hlen]
    have hq : ((p.length : ℚ)) ≠ 0 := by
      have := List.length_pos.mpr hp
      exact_mod_cast Nat.pos_iff_ne_zero.mp this
    rw [div_self hq, one_mul]

/-- **C2** (witness). -/
theorem c2_amended_witness :
    ((["a"] : List String) ≠ []) ∧
    (∀ r ∈ compareDocuments ["a"] ["a"], r.status = "identical") ∧
    (getStatistics (compareDocuments ["a"] ["a"])).identicalPercent = 100 :=
  ⟨by decide, (c2_amended ["a"] (by decide)).1,
    (c2_amended ["a"] (by decide)).2.2.2.2.2.2⟩

/-!
## Claim C1: totality and injectivity of the alignment

The bookkeeping stages of `_compare_documents` maintain: the match map has
pairwise-distinct keys and pairwise-distinct values, both in range, and
`matched_indices_2` holds exactly the values of the match map.
-/

theorem key_not_mem_iff_any (mm : List (Nat × Nat)) (k : Nat) :
    (mm.any (fun p => p.1 == k)) = false ↔ k ∉ mm.map Prod.fst := by
  rw [← Bool.not_eq_true, List.any_eq_true]
  constructor
  · intro h hk
    rcases List.mem_map.mp hk with ⟨q, hq, hqk⟩
    exact h ⟨q, hq, by simp [hqk]⟩
  · rintro h ⟨q, hq, hqk⟩
    exact h (List.mem_map.mpr ⟨q, hq, by simpa using hqk⟩)

theorem dictSet_fresh (mm : List (Nat × Nat)) (k v : Nat)
    (h : k ∉ mm.map Prod.fst) : dictSet mm k v = mm ++ [(k, v)] := by
  have hany := (key_not_mem_iff_any mm k).mpr h
  unfold dictSet
  rw [if_neg (by simp [hany])]

theorem setAdd_not_mem (s : List Nat) (x : Nat) (h : x ∉ s) :
    setAdd s x = s ++ [x] := by
  unfold setAdd
  rw [if_neg h]

theorem dictFind_eq_none_iff (mm : List (Nat × Nat)) (k : Nat) :
    dictFind mm k = none ↔ k ∉ mm.map Prod.fst := by
  unfold dictFind
  constructor
  · intro h hk
    rcases List.mem_map.mp hk with ⟨q, hq, hqk⟩
    cases hf : mm.find? (fun p => p.1 == k) with
    | none =>
      have := List.find?_eq_none.mp hf q hq
      simp [hqk] at this
    | some q' =>
      rw [hf] at h
      simp at h
  · intro h
    cases hf : mm.find? (fun p => p.1 == k) with
    | none => rfl
    | some q =>
      exfalso
      have hq := List.find?_some hf
      have hmem := List.mem_of_find?_eq_some hf
      exact h (List.mem_map.mpr ⟨q, hmem, by simpa using hq⟩)

theorem dictFind_some_mem (mm : List (Nat × Nat)) (k v : Nat)
    (h : dictFind mm k = some v) : (k, v) ∈ mm := by
  unfold dictFind at h
  cases hf : mm.find? (fun p => p.1 == k) with
  | none =>
    rw [hf] at h
    simp at h
  | some q =>
    rw [hf] at h
    have hq := List.find?_some hf
    have hmem := List.mem_of_find?_eq_some hf
    rw [Option.map_some'] at h
    have hv : q.2 = v := by simpa using h
    have hk : q.1 = k := by simpa using hq
    have hqe : q = (k, v) := by
      cases q
      simp only at hv hk
      rw [hv, hk]
    rw [← hqe]
    exact hmem

theorem key_unique (mm : List (Nat × Nat)) (hk : (mm.map Prod.fst).Nodup)
    (k a b : Nat) (ha : (k, a) ∈ mm) (hb : (k, b) ∈ mm) : a = b := by
  have := List.inj_on_of_nodup_map hk ha hb rfl
  simpa using congrArg Prod.snd this

theorem val_unique (mm : List (Nat × Nat)) (hv : (mm.map Prod.snd).Nodup)
    (j a b : Nat) (ha : (a, j) ∈ mm) (hb : (b, j) ∈ mm) : a = b := by
  have := List.inj_on_of_nodup_map hv ha hb rfl
  simpa using congrArg Prod.fst this

/-- The bookkeeping invariant of `_compare_documents` after the positional
and fingerprint stages. -/
def StInv (n m : Nat) (st : MatchState) : Prop :=
  (st.matchMap.map Prod.fst).Nodup ∧
  (st.matchMap.map Prod.snd).Nodup ∧
  (∀ q ∈ st.matchMap, q.1 < n ∧ q.2 < m) ∧
  st.matched2.Nodup ∧
  (∀ j, j ∈ st.matched2 ↔ ∃ k, (k, j) ∈ st.matchMap)

/-- Committing a fresh pair `(k, v)` preserves the bookkeeping invariant. -/
theorem StInv_insert (n m : Nat) (st : MatchState) (k v : Nat)
    (hst : StInv n m st) (hk : k ∉ st.matchMap.map Prod.fst)
    (hv : v ∉ st.matched2) (hkn : k < n) (hvm : v < m) (m1 : List Nat) :
    StInv n m
      { matchMap := st.matchMap ++ [(k, v)],
        matched1 := m1,
        matched2 := st.matched2 ++ [v] } := by
  obtain ⟨h1, h2, h3, h4, h5⟩ := hst
  refine ⟨?_, ?_, ?_, ?_, ?_⟩
  · show (((st.matchMap ++ [(k, v)]).map Prod.fst)).Nodup
    rw [List.map_append, List.nodup_append]
    refine ⟨h1, by simp, ?_⟩
    intro a ha hb
    rcases List.mem_singleton.mp (by simpa using hb) with rfl
    exact hk ha
  · show (((st.matchMap ++ [(k, v)]).map Prod.snd)).Nodup
    rw [List.map_append, List.nodup_append]
    refine ⟨h2, by simp, ?_⟩
    intro a ha hb
    have hav : a = v := by simpa using hb
    subst hav
    rcases List.mem_map.mp ha with ⟨q, hq, hqv⟩
    have hqe : q = (q.1, a) := by
      rw [← hqv]
    rw [hqe] at hq
    exact hv ((h5 a).mpr ⟨q.1, hq⟩)
  · intro q hq
    rcases List.mem_append.mp hq with h | h
    · exact h3 q h
    · rcases List.mem_singleton.mp h with rfl
      exact ⟨hkn, hvm⟩
  · show (st.matched2 ++ [v]).Nodup
    rw [List.nodup_append]
    refine ⟨h4, by simp, ?_⟩
    intro a ha hb
    rcases List.mem_singleton.mp (by simpa using hb) with rfl
    exact hv ha
  · intro j
    show j ∈ st.matched2 ++ [v] ↔ _
    rw [List.mem_append, List.mem_singleton]
    constructor
    · rintro (hj | rfl)
      · rcases (h5 j).mp hj with ⟨k0, hk0⟩
        exact ⟨k0, List.mem_append_left _ hk0⟩
      · exact ⟨k, List.mem_append_right _ (by simp)⟩
    · rintro ⟨k0, hk0⟩
      rcases List.mem_append.mp hk0 with h | h
      · exact Or.inl ((h5 j).mpr ⟨k0, h⟩)
      · rcases List.mem_singleton.mp h with heq
        have : j = v := by
          have := congrArg Prod.snd heq
          simpa using this
        exact Or.inr this

theorem foldl_preserve {β γ : Type} (P : β → Prop) (f : β → γ → β) :
    ∀ (l : List γ) (st : β), P st →
      (∀ b c, c ∈ l → P b → P (f b c)) → P (l.foldl f st) := by
  intro l
  induction l with
  | nil =>
    intro st h _
    exact h
  | cons c l ih =>
    intro st h hstep
    rw [List.foldl_cons]
    exact ih _ (hstep st c (by simp) h)
      (fun b y hy => hstep b y (by simp [hy]))

/-- One offset of the positional stage, for the block starting at
`(bi, bj)`. -/
def posStep (n m bi bj : Nat) (st : MatchState) (off : Nat) : MatchState :=
  if bi + off < n ∧ bj + off < m then
    { matchMap := dictSet st.matchMap (bi + off) (bj + off),
      matched1 := setAdd st.matched1 (bi + off),
      matched2 := setAdd st.matched2 (bj + off) }
  else st

theorem posStage_block_inv (n m bi bj : Nat) (st : MatchState)
    (hst : StInv n m st)
    (hfr : ∀ q ∈ st.matchMap, q.1 < bi ∧ q.2 < bj) :
    ∀ k,
      StInv n m ((List.range k).foldl (posStep n m bi bj) st) ∧
      (∀ q ∈ ((List.range k).foldl (posStep n m bi bj) st).matchMap,
        q.1 < bi + k ∧ q.2 < bj + k) := by
  intro k
  induction k with
  | zero =>
    exact ⟨hst, fun q hq => by
      have := hfr q hq
      omega⟩
  | succ k ih =>
    rw [List.range_succ, List.foldl_append, List.foldl_cons, List.foldl_nil]
    obtain ⟨ih1, ih2⟩ := ih
    set st' := (List.range k).foldl (posStep n m bi bj) st with hst'
    unfold posStep
    split
    · rename_i hcond
      have hkey : bi + k ∉ st'.matchMap.map Prod.fst := by
        intro hmem
        rcases List.mem_map.mp hmem with ⟨q, hq, hqk⟩
        have := ih2 q hq
        omega
      have hval : bj + k ∉ st'.matched2 := by
        intro hmem
        rcases (ih1.2.2.2.2 (bj + k)).mp hmem with ⟨k0, hk0⟩
        have := ih2 _ hk0
        simp only at this
        omega
      rw [dictSet_fresh _ _ _ hkey, setAdd_not_mem _ _ hval]
      refine ⟨StInv_insert n m st' (bi + k) (bj + k) ih1 hkey hval
        hcond.1 hcond.2 _, ?_⟩
      intro q hq
      rcases List.mem_append.mp hq with h | h
      · have := ih2 q h
        omega
      · rcases List.mem_singleton.mp h with rfl
        simp only
        omega
    · refine ⟨ih1, fun q hq => ?_⟩
      have := ih2 q hq
      omega

theorem posStage_fold_inv (n m : Nat) :
    ∀ (blocks : List (Nat × Nat × Nat)) (st : MatchState) (f1 f2 : Nat),
      blocks.Pairwise BlockSep →
      (∀ blk ∈ blocks, f1 ≤ blk.1 ∧ f2 ≤ blk.2.1) →
      StInv n m st →
      (∀ q ∈ st.matchMap, q.1 < f1 ∧ q.2 < f2) →
      StInv n m (blocks.foldl
        (fun st blk =>
          if 0 < blk.2.2 then
            (List.range blk.2.2).foldl (posStep n m blk.1 blk.2.1) st
          else st) st) := by
  intro blocks
  induction blocks with
  | nil =>
    intro st f1 f2 _ _ hst _
    exact hst
  | cons blk rest ih =>
    intro st f1 f2 hpw hup hst hfr
    have hpw' := List.pairwise_cons.mp hpw
    have hblk := hup blk (by simp)
    rw [List.foldl_cons]
    have hfr' : ∀ q ∈ st.matchMap, q.1 < blk.1 ∧ q.2 < blk.2.1 := by
      intro q hq
      have := hfr q hq
      omega
    have hb := posStage_block_inv n m blk.1 blk.2.1 st hst hfr' blk.2.2
    split
    · exact ih _ (blk.1 + blk.2.2) (blk.2.1 + blk.2.2) hpw'.2
        (fun y hy => hpw'.1 y hy) hb.1 hb.2
    · exact ih _ blk.1 blk.2.1 hpw'.2
        (fun y hy => by
          have := hpw'.1 y hy
          unfold BlockSep at this
          rename_i hsz
          omega)
        hst hfr'

theorem posStage_StInv (n m : Nat) (blocks : List (Nat × Nat × Nat))
    (hb : blocks.Pairwise BlockSep) : StInv n m (posStage n m blocks) := by
  have h := posStage_fold_inv n m blocks ⟨[], [], []⟩ 0 0 hb
    (fun blk _ => ⟨Nat.zero_le _, Nat.zero_le _⟩)
    ⟨List.Pairwise.nil, List.Pairwise.nil, fun q hq => by simp at hq,
      List.Pairwise.nil, fun j => by
        constructor
        · intro hj
          simp at hj
        · rintro ⟨k, hk⟩
          simp at hk⟩
    (fun q hq => by simp at hq)
  exact h

/-- The fingerprint stage preserves the bookkeeping invariant: a commit
requires an unmatched `idx1` (fresh key) and an unconsumed `idx2` (fresh
value, by the `matched_indices_2` test). -/
theorem fpStage_StInv (n m : Nat) (n1 n2 f1 f2 : List String)
    (st : MatchState) (hst : StInv n m st)
    (hf1 : f1.length ≤ n) (hf2 : f2.length ≤ m) :
    StInv n m (fpStage n1 n2 f1 f2 st) := by
  unfold fpStage
  apply foldl_preserve (StInv n m)
  · exact hst
  · intro b idx1 hidx1 hP
    have hidx1' : idx1 < f1.length := List.mem_range.mp hidx1
    dsimp only
    by_cases hc : fingerprintBucket f2 (f1.getD idx1 "") ≠ []
    · rw [if_pos hc]
      split
      · rename_i idx2 heq
        by_cases hs : (dictFind b.matchMap idx1).isSome = true
        · rw [if_pos hs]
          exact hP
        · rw [if_neg hs]
          have hnone : dictFind b.matchMap idx1 = none := by
            rcases hd : dictFind b.matchMap idx1 with _ | v
            · rfl
            · rw [hd] at hs
              simp at hs
          have hkey : idx1 ∉ b.matchMap.map Prod.fst :=
            (dictFind_eq_none_iff _ _).mp hnone
          have hmem := List.mem_of_find?_eq_some heq
          have hpred := List.find?_some heq
          have hval : idx2 ∉ b.matched2 := by
            rw [Bool.and_eq_true] at hpred
            have hcont : b.matched2.contains idx2 = false := by
              have := hpred.1
              cases hcc : b.matched2.contains idx2 with
              | false => rfl
              | true =>
                rw [hcc] at this
                simp at this
            intro hin
            have hcont2 : b.matched2.contains idx2 = true :=
              List.elem_iff.mpr hin
            rw [hcont2] at hcont
            simp at hcont
          have hidx2 : idx2 < f2.length :=
            mem_fingerprintBucket_lt f2 _ idx2 hmem
          rw [dictSet_fresh _ _ _ hkey, setAdd_not_mem _ _ hval]
          exact StInv_insert n m b idx1 idx2 hP hkey hval
            (by omega) (by omega) _
      · exact hP
    · rw [if_neg hc]
      exact hP

theorem map_index1_append (l : List ParaRecord) (r : ParaRecord) (k : Nat)
    (hl : l.map (fun r => r.index1) =
      (List.range k).map (fun (t : Nat) => some ((t : Int) + 1)))
    (hr : r.index1 = some ((k : Int) + 1)) :
    (l ++ [r]).map (fun r => r.index1) =
      (List.range (k + 1)).map (fun (t : Nat) => some ((t : Int) + 1)) := by
  rw [List.map_append, hl, List.range_succ, List.map_append]
  simp [hr]

theorem classifyMatched_index (t1 t2 : String) (i j : Nat) :
    (classifyMatched t1 t2 i j).index1 = some ((i : Int) + 1) ∧
    (classifyMatched t1 t2 i j).index2 = some ((j : Int) + 1) := by
  unfold classifyMatched
  dsimp only
  split
  · exact ⟨rfl, rfl⟩
  · split
    · exact ⟨rfl, rfl⟩
    · exact ⟨rfl, rfl⟩

/-- The side-2 indices recorded by the main loop so far. -/
def idxVals (l : List ParaRecord) : List Int :=
  l.filterMap (fun r => r.index2)

/-- The main-loop invariant after processing source indices `[0, k)`:
one record per processed index in order; consumed side-2 indices are
distinct; the recorded side-2 indices are distinct and are exactly the
match-map values of processed keys plus the fallback picks. -/
def MainInv (st1 : MatchState) (k : Nat)
    (acc : List ParaRecord × List Nat) : Prop :=
  (acc.1.map (fun r => r.index1) =
    (List.range k).map (fun (t : Nat) => some ((t : Int) + 1))) ∧
  acc.2.Nodup ∧
  (∀ j ∈ st1.matched2, j ∈ acc.2) ∧
  (idxVals acc.1).Nodup ∧
  (∀ v, v ∈ idxVals acc.1 ↔ ∃ j : Nat, v = (j : Int) + 1 ∧
    ((∃ t, t < k ∧ (t, j) ∈ st1.matchMap) ∨
      (j ∈ acc.2 ∧ j ∉ st1.matched2)))

theorem mainFold_inv (p1 p2 n1 n2 : List String) (st1 : MatchState)
    (n m : Nat) (hst : StInv n m st1) :
    ∀ k, MainInv st1 k
      ((List.range k).foldl
        (mainStep p1 p2 n1 n2 st1.matchMap) ([], st1.matched2)) := by
  intro k
  induction k with
  | zero =>
    refine ⟨rfl, hst.2.2.2.1, fun j hj => hj, List.nodup_nil, ?_⟩
    intro v
    constructor
    · intro hv
      simp [idxVals] at hv
    · rintro ⟨j, hj, hcase⟩
      rcases hcase with ⟨t, ht, _⟩ | ⟨hj2, hjn⟩
      · omega
      · exact absurd hj2 hjn
  | succ k ih =>
    rw [List.range_succ, List.foldl_append, List.foldl_cons, List.foldl_nil]
    set acc := (List.range k).foldl (mainStep p1 p2 n1 n2 st1.matchMap)
      ([], st1.matched2) with hacc
    have i1 : acc.1.map (fun r => r.index1) =
        (List.range k).map (fun (t : Nat) => some ((t : Int) + 1)) := ih.1
    have i2 : acc.2.Nodup := ih.2.1
    have i5 : ∀ j ∈ st1.matched2, j ∈ acc.2 := ih.2.2.1
    have i4 : (idxVals acc.1).Nodup := ih.2.2.2.1
    have i3 : ∀ v, v ∈ idxVals acc.1 ↔ ∃ j : Nat, v = (j : Int) + 1 ∧
        ((∃ t, t < k ∧ (t, j) ∈ st1.matchMap) ∨
          (j ∈ acc.2 ∧ j ∉ st1.matched2)) := ih.2.2.2.2
    unfold mainStep
    split
    · -- matched branch: dictFind st1.matchMap k = some idx2
      rename_i idx2 hdk
      have hmem : (k, idx2) ∈ st1.matchMap := dictFind_some_mem _ _ _ hdk
      have hidx := classifyMatched_index (p1.getD k "") (p2.getD idx2 "")
        k idx2
      have hvals : idxVals (acc.1 ++
          [classifyMatched (p1.getD k "") (p2.getD idx2 "") k idx2]) =
          idxVals acc.1 ++ [((idx2 : Int) + 1)] := by
        unfold idxVals
        rw [List.filterMap_append]
        congr 1
        rw [List.filterMap_cons, hidx.2]
        rfl
      have hfresh : ((idx2 : Int) + 1) ∉ idxVals acc.1 := by
        intro hin
        rcases (i3 _).mp hin with ⟨j', he, hcase⟩
        have hj' : j' = idx2 := by omega
        subst hj'
        rcases hcase with ⟨t, ht, hmm⟩ | ⟨_, hnm⟩
        · have := val_unique st1.matchMap hst.2.1 j' t k hmm hmem
          omega
        · exact hnm ((hst.2.2.2.2 j').mpr ⟨k, hmem⟩)
      refine ⟨?_, i2, i5, ?_, ?_⟩
      · exact map_index1_append acc.1 _ k i1 hidx.1
      · show (idxVals (acc.1 ++ [_])).Nodup
        rw [hvals, List.nodup_append]
        exact ⟨i4, by simp, fun a ha hb => by
          rcases List.mem_singleton.mp hb with rfl
          exact hfresh ha⟩
      · intro v
        show v ∈ idxVals (acc.1 ++ [_]) ↔ _
        rw [hvals, List.mem_append, List.mem_singleton]
        constructor
        · rintro (hv | rfl)
          · rcases (i3 v).mp hv with ⟨j', he, hcase⟩
            refine ⟨j', he, ?_⟩
            rcases hcase with ⟨t, ht, hmm⟩ | hr
            · exact Or.inl ⟨t, by omega, hmm⟩
            · exact Or.inr hr
          · exact ⟨idx2, rfl, Or.inl ⟨k, by omega, hmem⟩⟩
        · rintro ⟨j', he, hcase⟩
          rcases hcase with ⟨t, ht, hmm⟩ | hr
          · by_cases htk : t = k
            · subst htk
              have : j' = idx2 := key_unique st1.matchMap hst.1 t j' idx2
                hmm hmem
              subst this
              exact Or.inr (by rw [he])
            · exact Or.inl ((i3 v).mpr ⟨j', he, Or.inl ⟨t, by omega, hmm⟩⟩)
          · exact Or.inl ((i3 v).mpr ⟨j', he, Or.inr hr⟩)
    · -- unmatched: dictFind st1.matchMap k = none
      rename_i hdk
      have hnokey : ∀ j', (k, j') ∉ st1.matchMap := by
        intro j' hmm
        exact absurd (List.mem_map.mpr ⟨(k, j'), hmm, rfl⟩)
          ((dictFind_eq_none_iff _ _).mp hdk)
      by_cases hth : simThresholdLow ≤
          (findBestMatchByContent (n1.getD k "") n2 acc.2).2
      · rw [if_pos hth]
        rcases findBestMatchByContent_spec (n1.getD k "") n2 acc.2 with
          hneg | ⟨j, hj1, hj2, hj3, hj4⟩
        · exfalso
          rw [hneg] at hth
          have h0 : simThresholdLow ≤ (0 : ℚ) := hth
          norm_num [simThresholdLow] at h0
        · have htn : (findBestMatchByContent (n1.getD k "") n2 acc.2).1.toNat
              = j := by
            rw [hj1]
            exact Int.toNat_natCast j
          have hvals : ∀ r : ParaRecord, r.index2 =
              some ((findBestMatchByContent (n1.getD k "") n2 acc.2).1 + 1) →
              ∀ l : List ParaRecord,
              idxVals (l ++ [r]) = idxVals l ++ [((j : Int) + 1)] := by
            intro r hr l
            unfold idxVals
            rw [List.filterMap_append]
            congr 1
            rw [List.filterMap_cons, hr, hj1]
            rfl
          have hfresh : ((j : Int) + 1) ∉ idxVals acc.1 := by
            intro hin
            rcases (i3 _).mp hin with ⟨j', he, hcase⟩
            have hj' : j' = j := by omega
            subst hj'
            rcases hcase with ⟨t, ht, hmm⟩ | ⟨hin2, _⟩
            · exact hj3 (i5 j' ((hst.2.2.2.2 j').mpr ⟨t, hmm⟩))
            · exact hj3 hin2
          have hjm2 : j ∉ st1.matched2 := fun hin => hj3 (i5 j hin)
          rw [htn, setAdd_not_mem _ _ hj3]
          refine ⟨?_, ?_, ?_, ?_, ?_⟩
          · exact map_index1_append acc.1 _ k i1 rfl
          · show (acc.2 ++ [j]).Nodup
            rw [List.nodup_append]
            exact ⟨i2, by simp, fun a ha hb => by
              rcases List.mem_singleton.mp hb with rfl
              exact hj3 ha⟩
          · intro j0 hj0
            exact List.mem_append_left _ (i5 j0 hj0)
          · show (idxVals (acc.1 ++ [_])).Nodup
            rw [hvals _ rfl]
            rw [List.nodup_append]
            exact ⟨i4, by simp, fun a ha hb => by
              rcases List.mem_singleton.mp hb with rfl
              exact hfresh ha⟩
          · intro v
            show v ∈ idxVals (acc.1 ++ [_]) ↔ _
            rw [hvals _ rfl, List.mem_append, List.mem_singleton]
            constructor
            · rintro (hv | rfl)
              · rcases (i3 v).mp hv with ⟨j', he, hcase⟩
                refine ⟨j', he, ?_⟩
                rcases hcase with ⟨t, ht, hmm⟩ | ⟨ha, hb⟩
                · exact Or.inl ⟨t, by omega, hmm⟩
                · exact Or.inr ⟨List.mem_append_left _ ha, hb⟩
              · exact ⟨j, rfl,
                  Or.inr ⟨List.mem_append_right _ (by simp), hjm2⟩⟩
            · rintro ⟨j', he, hcase⟩
              rcases hcase with ⟨t, ht, hmm⟩ | ⟨ha, hb⟩
              · by_cases htk : t = k
                · subst htk
                  exact absurd hmm (hnokey j')
                · exact Or.inl ((i3 v).mpr
                    ⟨j', he, Or.inl ⟨t, by omega, hmm⟩⟩)
              · rcases List.mem_append.mp ha with ha' | ha'
                · exact Or.inl ((i3 v).mpr ⟨j', he, Or.inr ⟨ha', hb⟩⟩)
                · rcases List.mem_singleton.mp ha' with rfl
                  exact Or.inr (by rw [he])
      · rw [if_neg hth]
        have hvals : idxVals (acc.1 ++
            [{ index1 := some ((k : Int) + 1), text1 := some (p1.getD k ""),
               index2 := none, text2 := none,
               status := "deleted", similarity := 0,
               differences := [], changeType := "Удален" }]) =
            idxVals acc.1 := by
          unfold idxVals
          rw [List.filterMap_append]
          simp
        refine ⟨?_, i2, i5, ?_, ?_⟩
        · exact map_index1_append acc.1 _ k i1 rfl
        · show (idxVals (acc.1 ++ [_])).Nodup
          rw [hvals]
          exact i4
        · intro v
          show v ∈ idxVals (acc.1 ++ [_]) ↔ _
          rw [hvals]
          constructor
          · intro hv
            rcases (i3 v).mp hv with ⟨j', he, hcase⟩
            refine ⟨j', he, ?_⟩
            rcases hcase with ⟨t, ht, hmm⟩ | hr
            · exact Or.inl ⟨t, by omega, hmm⟩
            · exact Or.inr hr
          · rintro ⟨j', he, hcase⟩
            rcases hcase with ⟨t, ht, hmm⟩ | hr
            · by_cases htk : t = k
              · subst htk
                exact absurd hmm (hnokey j')
              · exact (i3 v).mpr ⟨j', he, Or.inl ⟨t, by omega, hmm⟩⟩
            · exact (i3 v).mpr ⟨j', he, Or.inr hr⟩

theorem length_filter_by_map {α β : Type} (f : α → β) (pb : β → Bool)
    (l : List α) :
    (l.filter (fun a => pb (f a))).length = ((l.map f).filter pb).length := by
  induction l with
  | nil => rfl
  | cons a l ih =>
    rw [List.map_cons, List.filter_cons, List.filter_cons]
    cases hpa : pb (f a)
    · rw [if_neg (by simp [hpa]), if_neg (by simp [hpa])]
      exact ih
    · rw [if_pos (by simp [hpa]), if_pos (by simp [hpa])]
      simp only [List.length_cons, ih]

theorem length_filter_eq_zero {β : Type} [BEq β] [LawfulBEq β] (l : List β)
    (v : β) (hv : v ∉ l) : (l.filter (fun x => x == v)).length = 0 := by
  rw [List.length_eq_zero, List.filter_eq_nil_iff]
  intro x hx hxv
  exact hv (eq_of_beq hxv ▸ hx)

theorem length_filter_eq_one {β : Type} [BEq β] [LawfulBEq β] :
    ∀ (l : List β) (v : β), l.Nodup → v ∈ l →
      (l.filter (fun x => x == v)).length = 1 := by
  intro l
  induction l with
  | nil =>
    intro v _ hv
    simp at hv
  | cons a l ih =>
    intro v hn hv
    have hn' := List.nodup_cons.mp hn
    rw [List.filter_cons]
    rcases List.mem_cons.mp hv with rfl | hv'
    · rw [if_pos (by simp)]
      have h0 : (l.filter (fun x => x == v)).length = 0 :=
        length_filter_eq_zero l v hn'.1
      simp [h0]
    · have hva : ¬ (a == v) = true := by
        intro hb
        exact hn'.1 (eq_of_beq hb ▸ hv')
      rw [if_neg hva]
      exact ih v hn'.2 hv'

theorem length_filter_option {α β : Type} [BEq β] (f : α → Option β) (v : β)
    (l : List α) :
    (l.filter (fun a => f a == some v)).length =
      ((l.filterMap f).filter (fun x => x == v)).length := by
  induction l with
  | nil => rfl
  | cons a l ih =>
    rw [List.filter_cons, List.filterMap_cons]
    cases hfa : f a with
    | none =>
      rw [if_neg (by simp [hfa])]
      exact ih
    | some b =>
      rw [List.filter_cons]
      have hbeq : (f a == some v) = (b == v) := by
        rw [hfa]
        rfl
      cases hbv : (b == v)
      · rw [if_neg (by simp [hbeq, hbv]), if_neg (by simp [hbv])]
        exact ih
      · rw [if_pos (by simp [hbeq, hbv]), if_pos (by simp [hbv])]
        simp only [List.length_cons, ih]

theorem filterMap_ite {α β : Type} (P : α → Prop) [DecidablePred P]
    (g : α → β) (l : List α) :
    l.filterMap (fun a => if P a then some (g a) else none) =
      (l.filter (fun a => decide (P a))).map g := by
  induction l with
  | nil => rfl
  | cons a l ih =>
    rw [List.filterMap_cons, List.filter_cons]
    by_cases hP : P a
    · rw [if_pos hP, if_pos (by simpa), List.map_cons, ih]
    · rw [if_neg hP, if_neg (by simpa), ih]

/-- One `added` record of `_compare_documents`. -/
def addedRec (p2 : List String) (idx2 : Nat) : ParaRecord :=
  { index1 := none, text1 := none,
    index2 := some ((idx2 : Int) + 1), text2 := some (p2.getD idx2 ""),
    status := "added", similarity := 0,
    differences := [], changeType := "Добавлен" }

/-- The final `added` loop of `_compare_documents`. -/
def addedRecs (p2 : List String) (m2 : List Nat) : List ParaRecord :=
  (List.range p2.length).filterMap (fun idx2 =>
    if idx2 ∉ m2 then some (addedRec p2 idx2) else none)

theorem addedRecs_eq (p2 : List String) (m2 : List Nat) :
    addedRecs p2 m2 = ((List.range p2.length).filter
      (fun a => decide (a ∉ m2))).map (addedRec p2) :=
  filterMap_ite _ _ _

theorem addedRecs_index1 (p2 : List String) (m2 : List Nat) :
    ∀ r ∈ addedRecs p2 m2, r.index1 = none := by
  intro r hr
  rw [addedRecs_eq] at hr
  rcases List.mem_map.mp hr with ⟨a, _, rfl⟩
  rfl

theorem alignment_counts (p1 p2 : List String) (st1 : MatchState)
    (hst : StInv p1.length p2.length st1)
    (main : List ParaRecord × List Nat)
    (hmaineq : main = (List.range p1.length).foldl
      (mainStep p1 p2 (p1.map normalizeText) (p2.map normalizeText)
        st1.matchMap) ([], st1.matched2)) :
    (∀ i, i < p1.length →
      ((main.1 ++ addedRecs p2 main.2).filter
        (fun r => r.index1 == some ((i : Int) + 1))).length = 1) ∧
    (∀ j, j < p2.length →
      ((main.1 ++ addedRecs p2 main.2).filter
        (fun r => r.index2 == some ((j : Int) + 1))).length = 1) := by
  have hmain : MainInv st1 p1.length main := by
    rw [hmaineq]
    exact mainFold_inv p1 p2 (p1.map normalizeText) (p2.map normalizeText)
      st1 p1.length p2.length hst p1.length
  have hinj : Function.Injective (fun (t : Nat) => some ((t : Int) + 1)) := by
    intro a b hab
    simp only [Option.some_inj] at hab
    omega
  have hiff : ∀ j : Nat, ((j : Int) + 1) ∈ idxVals main.1 ↔ j ∈ main.2 := by
    intro j
    constructor
    · intro hv
      rcases (hmain.2.2.2.2 _).mp hv with ⟨j', he, hcase⟩
      have hjj : j' = j := by omega
      subst hjj
      rcases hcase with ⟨t, _, hmm⟩ | ⟨ha, _⟩
      · exact hmain.2.2.1 j' ((hst.2.2.2.2 j').mpr ⟨t, hmm⟩)
      · exact ha
    · intro hj
      by_cases hm2 : j ∈ st1.matched2
      · rcases (hst.2.2.2.2 j).mp hm2 with ⟨t, hmm⟩
        have htn : t < p1.length := (hst.2.2.1 (t, j) hmm).1
        exact (hmain.2.2.2.2 _).mpr ⟨j, rfl, Or.inl ⟨t, htn, hmm⟩⟩
      · exact (hmain.2.2.2.2 _).mpr ⟨j, rfl, Or.inr ⟨hj, hm2⟩⟩
  have haddedvals : (addedRecs p2 main.2).filterMap
      (fun r => r.index2) =
      ((List.range p2.length).filter (fun a => decide (a ∉ main.2))).map
        (fun (a : Nat) => ((a : Int) + 1)) := by
    rw [addedRecs_eq, List.filterMap_map]
    have hcomp : ((fun r : ParaRecord => r.index2) ∘ addedRec p2) =
        (fun (a : Nat) => some ((a : Int) + 1)) := by
      funext a
      rfl
    rw [hcomp]
    exact congrFun (List.filterMap_eq_map (fun (a : Nat) => ((a : Int) + 1))) _
  constructor
  · intro i hi
    rw [List.filter_append, List.length_append]
    have hleft : (main.1.filter
        (fun r => r.index1 == some ((i : Int) + 1))).length = 1 := by
      rw [length_filter_by_map (fun (r : ParaRecord) => r.index1)
        (fun x => x == some ((i : Int) + 1)) main.1]
      rw [hmain.1]
      apply length_filter_eq_one
      · exact (List.nodup_range _).map hinj
      · exact List.mem_map.mpr ⟨i, List.mem_range.mpr hi, rfl⟩
    have hright : ((addedRecs p2 main.2).filter
        (fun r => r.index1 == some ((i : Int) + 1))).length = 0 := by
      rw [List.length_eq_zero, List.filter_eq_nil_iff]
      intro r hr
      rw [addedRecs_index1 p2 main.2 r hr]
      simp
    omega
  · intro j hj
    rw [List.filter_append, List.length_append]
    have hleft : (main.1.filter
        (fun r => r.index2 == some ((j : Int) + 1))).length =
        if j ∈ main.2 then 1 else 0 := by
      rw [length_filter_option (fun (r : ParaRecord) => r.index2)
        ((j : Int) + 1) main.1]
      by_cases hjm : j ∈ main.2
      · rw [if_pos hjm]
        exact length_filter_eq_one _ _ hmain.2.2.2.1 ((hiff j).mpr hjm)
      · rw [if_neg hjm]
        exact length_filter_eq_zero _ _ (fun hv => hjm ((hiff j).mp hv))
    have hright : ((addedRecs p2 main.2).filter
        (fun r => r.index2 == some ((j : Int) + 1))).length =
        if j ∈ main.2 then 0 else 1 := by
      rw [length_filter_option (fun (r : ParaRecord) => r.index2)
        ((j : Int) + 1) (addedRecs p2 main.2)]
      rw [haddedvals]
      have hnd : (((List.range p2.length).filter
          (fun a => decide (a ∉ main.2))).map
          (fun (a : Nat) => ((a : Int) + 1))).Nodup := by
        apply List.Nodup.map
        · intro a b hab
          simp only at hab
          omega
        · exact (List.nodup_range _).filter _
      have hmem : (((j : Int) + 1) ∈ ((List.range p2.length).filter
          (fun a => decide (a ∉ main.2))).map
          (fun (a : Nat) => ((a : Int) + 1))) ↔ (j ∉ main.2) := by
        rw [List.mem_map]
        constructor
        · rintro ⟨a, ha, he⟩
          have : a = j := by omega
          subst this
          rcases List.mem_filter.mp ha with ⟨_, hd⟩
          simpa using hd
        · intro hjm
          exact ⟨j, List.mem_filter.mpr
            ⟨List.mem_range.mpr hj, by simpa using hjm⟩, rfl⟩
      by_cases hjm : j ∈ main.2
      · rw [if_pos hjm]
        exact length_filter_eq_zero _ _ (fun hv => (hmem.mp hv) hjm)
      · rw [if_neg hjm]
        exact length_filter_eq_one _ _ hnd (hmem.mpr hjm)
    by_cases hjm : j ∈ main.2
    · rw [hleft, hright, if_pos hjm, if_pos hjm]
    · rw [hleft, hright, if_neg hjm, if_neg hjm]

/-- **C1** (confirmed).  For every pair of paragraph lists, the records of
`_compare_documents` contain every source index exactly once as side 1 and
every target index exactly once as side 2: each source paragraph produces
exactly one record in the main loop, the match-map keys and values are
pairwise distinct and synchronized with `matched_indices_2`, the
content-fallback only consumes unconsumed target indices, and the `added`
loop emits exactly the never-consumed target indices. -/
theorem c1_alignment (p1 p2 : List String) :
    (∀ i, i < p1.length →
      ((compareDocuments p1 p2).filter
        (fun r => r.index1 == some ((i : Int) + 1))).length = 1) ∧
    (∀ j, j < p2.length →
      ((compareDocuments p1 p2).filter
        (fun r => r.index2 == some ((j : Int) + 1))).length = 1) := by
  have hblocks := (getMatchingBlocks_spec (p1.map normalizeText)
    (p2.map normalizeText)).2.1
  have hpos := posStage_StInv p1.length p2.length
    (getMatchingBlocks (p1.map normalizeText) (p2.map normalizeText)) hblocks
  have hst1 := fpStage_StInv p1.length p2.length
    (p1.map normalizeText) (p2.map normalizeText)
    (p1.map getTextFingerprint) (p2.map getTextFingerprint)
    _ hpos (by simp) (by simp)
  have h := alignment_counts p1 p2 _ hst1 _ rfl
  exact h

/-- **C1** (witness). -/
theorem c1_alignment_witness :
    (0 < (["a"] : List String).length ∧
      ((compareDocuments ["a"] ["b", "c"]).filter
        (fun r => r.index1 == some ((0 : Int) + 1))).length = 1) ∧
    (1 < (["b", "c"] : List String).length ∧
      ((compareDocuments ["a"] ["b", "c"]).filter
        (fun r => r.index2 == some ((1 : Int) + 1))).length = 1) :=
  ⟨⟨by decide, (c1_alignment ["a"] ["b", "c"]).1 0 (by decide)⟩,
    ⟨by decide, (c1_alignment ["a"] ["b", "c"]).2 1 (by decide)⟩⟩

/-!
## Claim C3: exception propagation

`_compare_documents` (src/compare.py 245–354) contains no `try`/`except`:
an exception raised while classifying one paragraph pair propagates out of
the per-paragraph loop.  The only handler is in `Compare.__init__`
(src/compare.py 69–89), which catches `Exception`, logs, and re-raises
`ComparisonError(str(e))` — aborting the whole comparison instead of
degrading one paragraph.  The embedding threads a fallible classifier
through the main loop with `Except`.
-/

/-- A Python exception value: an arbitrary error, or the `ComparisonError`
re-raised by `Compare.__init__` with `str(e)` as its message. -/
inductive PyErr where
  | generic (msg : String)
  | comparisonError (msg : String)
deriving DecidableEq, Repr

/-- `str(e)`. -/
def errStr : PyErr → String
  | .generic m => m
  | .comparisonError m => m

/-- The matched branch of the per-paragraph loop with a fallible
classifier; the unmatched branch is as in `mainStep`.  No exception is
caught here, matching the absence of `try`/`except` in the loop body. -/
def mainStepExc
    (classify : String → String → Nat → Nat → Except PyErr ParaRecord)
    (paragraphs1 paragraphs2 normalized1 normalized2 : List String)
    (matchMap : List (Nat × Nat))
    (acc : List ParaRecord × List Nat) (idx1 : Nat) :
    Except PyErr (List ParaRecord × List Nat) :=
  let para1 := paragraphs1.getD idx1 ""
  match dictFind matchMap idx1 with
  | some idx2 =>
    match classify para1 (paragraphs2.getD idx2 "") idx1 idx2 with
    | .ok r => .ok (acc.1 ++ [r], acc.2)
    | .error e => .error e
  | none =>
    .ok (mainStep paragraphs1 paragraphs2 normalized1 normalized2 matchMap
      acc idx1)

/-- `_compare_documents` with the fallible classifier threaded through the
main loop. -/
def compareDocumentsExc
    (classify : String → String → Nat → Nat → Except PyErr ParaRecord)
    (paragraphs1 paragraphs2 : List String) :
    Except PyErr (List ParaRecord) :=
  let normalized1 := paragraphs1.map normalizeText
  let normalized2 := paragraphs2.map normalizeText
  let fps1 := paragraphs1.map getTextFingerprint
  let fps2 := paragraphs2.map getTextFingerprint
  let blocks := getMatchingBlocks normalized1 normalized2
  let st0 := posStage paragraphs1.length paragraphs2.length blocks
  let st1 := fpStage normalized1 normalized2 fps1 fps2 st0
  match (List.range paragraphs1.length).foldlM
      (mainStepExc classify paragraphs1 paragraphs2 normalized1 normalized2
        st1.matchMap)
      ([], st1.matched2) with
  | .error e => .error e
  | .ok main => .ok (main.1 ++ addedRecs paragraphs2 main.2)

/-- The infallible classifier: the pure matched branch. -/
def okClassify : String → String → Nat → Nat → Except PyErr ParaRecord :=
  fun t1 t2 i j => .ok (classifyMatched t1 t2 i j)

/-- The `try`/`except` of `Compare.__init__`: any exception from the
comparison is re-raised as `ComparisonError(str(e))`; no degraded
per-paragraph result is produced. -/
def compareInit
    (classify : String → String → Nat → Nat → Except PyErr ParaRecord)
    (paragraphs1 paragraphs2 : List String) :
    Except PyErr (List ParaRecord) :=
  match compareDocumentsExc classify paragraphs1 paragraphs2 with
  | .ok r => .ok r
  | .error e => .error (.comparisonError (errStr e))

/-- A classifier that raises on source index `bad` and behaves like the
pure classifier elsewhere. -/
def failClassify (bad : Nat) (msg : String) :
    String → String → Nat → Nat → Except PyErr ParaRecord :=
  fun t1 t2 i j =>
    if i = bad then .error (.generic msg)
    else .ok (classifyMatched t1 t2 i j)

theorem mainStepExc_ok (p1 p2 n1 n2 : List String) (mm : List (Nat × Nat))
    (acc : List ParaRecord × List Nat) (idx1 : Nat) :
    mainStepExc okClassify p1 p2 n1 n2 mm acc idx1 =
      .ok (mainStep p1 p2 n1 n2 mm acc idx1) := by
  unfold mainStepExc okClassify mainStep
  cases dictFind mm idx1 with
  | none => rfl
  | some idx2 => rfl

theorem foldlM_of_ok {σ α : Type} (g : σ → α → σ)
    (f : σ → α → Except PyErr σ) (hf : ∀ s a, f s a = .ok (g s a)) :
    ∀ (l : List α) (s : σ), l.foldlM f s = .ok (l.foldl g s) := by
  intro l
  induction l with
  | nil => intro s; rfl
  | cons a l ih =>
    intro s
    rw [List.foldlM_cons, hf]
    show l.foldlM f (g s a) = .ok (List.foldl g s (a :: l))
    exact ih (g s a)

theorem cdExc_ok_aux (p1 p2 : List String) (st1 : MatchState) :
    (List.range p1.length).foldlM
      (mainStepExc okClassify p1 p2 (p1.map normalizeText)
        (p2.map normalizeText) st1.matchMap)
      (([] : List ParaRecord), st1.matched2) =
    .ok ((List.range p1.length).foldl
      (mainStep p1 p2 (p1.map normalizeText) (p2.map normalizeText)
        st1.matchMap) ([], st1.matched2)) :=
  foldlM_of_ok _ _
    (fun s a => mainStepExc_ok p1 p2 (p1.map normalizeText)
      (p2.map normalizeText) st1.matchMap s a) _ _

theorem compareDocumentsExc_ok (p1 p2 : List String) :
    compareDocumentsExc okClassify p1 p2 = .ok (compareDocuments p1 p2) := by
  unfold compareDocumentsExc
  dsimp only
  rw [cdExc_ok_aux p1 p2]
  rfl

/-- **C3** (counterexample).  The classification of the second paragraph
pair of a two-paragraph self-comparison raises: the whole comparison
errors out — no record is produced for any paragraph, including the first,
which classifies fine — and `__init__` re-raises `ComparisonError` instead
of degrading the one failing paragraph. -/
theorem c3_counterexample :
    compareDocumentsExc (failClassify 1 "err") ["a", "b"] ["a", "b"] =
      .error (.generic "err") ∧
    compareInit (failClassify 1 "err") ["a", "b"] ["a", "b"] =
      .error (.comparisonError "err") := by
  constructor
  · rfl
  · rfl

/-- **C3** (amended).  There is no per-paragraph containment: with the
infallible classifier the threaded loop returns exactly the pure records,
and any exception raised while classifying one paragraph pair propagates
out of `_compare_documents` unchanged, where `Compare.__init__` converts
it to `ComparisonError(str(e))` and re-raises — one failing paragraph
aborts the whole document comparison (`c3_counterexample`). -/
theorem c3_amended (p1 p2 : List String) :
    (compareDocumentsExc okClassify p1 p2 = .ok (compareDocuments p1 p2)) ∧
    (∀ classify e, compareDocumentsExc classify p1 p2 = .error e →
      compareInit classify p1 p2 = .error (.comparisonError (errStr e))) ∧
    (∀ classify r, compareDocumentsExc classify p1 p2 = .ok r →
      compareInit classify p1 p2 = .ok r) := by
  refine ⟨compareDocumentsExc_ok p1 p2, ?_, ?_⟩
  · intro classify e he
    unfold compareInit
    rw [he]
  · intro classify r hr
    unfold compareInit
    rw [hr]

/-- **C3** (witness). -/
theorem c3_amended_witness :
    (compareInit (failClassify 1 "err") ["a", "b"] ["a", "b"] =
      .error (.comparisonError "err")) ∧
    (compareInit okClassify ["a"] ["a"] =
      .ok (compareDocuments ["a"] ["a"])) :=
  ⟨(c3_amended ["a", "b"] ["a", "b"]).2.1 (failClassify 1 "err")
      (.generic "err") (by rfl),
    (c3_amended ["a"] ["a"]).2.2 okClassify (compareDocuments ["a"] ["a"])
      ((c3_amended ["a"] ["a"]).1)⟩

end CompareDocx
